import Mathlib

/-!
Verification of the content-detection and Mermaid auto-fix core of the
markdown-mermaid-preview repository.  Text is modelled as `List Char`;
the JavaScript string and regular-expression operations used by
`src/contentDetector.ts` and `src/mermaidFixer.ts` are embedded as
executable Lean functions over that representation.
-/

namespace MMP

/-- ASCII lower-casing, as JavaScript `toLowerCase` acts on the basic latin
letters used by the diagram keywords. -/
def lowC (c : Char) : Char :=
  if 65 ≤ c.toNat ∧ c.toNat ≤ 90 then Char.ofNat (c.toNat + 32) else c

/-- JavaScript whitespace (`\s`, and the set removed by `String.trim`):
tab, LF, VT, FF, CR, space, NBSP, LS, PS, BOM. -/
def isJsWs (c : Char) : Bool :=
  c.toNat == 9 || c.toNat == 10 || c.toNat == 11 || c.toNat == 12 ||
  c.toNat == 13 || c.toNat == 32 || c.toNat == 160 ||
  c.toNat == 0x2028 || c.toNat == 0x2029 || c.toNat == 0xFEFF

/-- JavaScript line terminators (what `^`/`$` with the `m` flag anchor at,
and what `.` refuses to match): LF, CR, LS, PS. -/
def isLineTermJs (c : Char) : Bool :=
  c.toNat == 10 || c.toNat == 13 || c.toNat == 0x2028 || c.toNat == 0x2029

/-- The character class of `.` in a JavaScript regex: anything but a line
terminator. -/
def isDotChar (c : Char) : Bool := !(isLineTermJs c)

/-- The `\w` class: ASCII letters, digits and underscore. -/
def isWordChar (c : Char) : Bool :=
  (65 ≤ c.toNat && c.toNat ≤ 90) || (97 ≤ c.toNat && c.toNat ≤ 122) ||
  (48 ≤ c.toNat && c.toNat ≤ 57) || c.toNat == 95

/-- The `\d` class. -/
def isDigitC (c : Char) : Bool := 48 ≤ c.toNat && c.toNat ≤ 57

/-- The `[ \t]` class used by the merge rules. -/
def isTabSpace (c : Char) : Bool := c.toNat == 32 || c.toNat == 9

/-- The `[\r\n]` class used by the merge rules. -/
def isCrLf (c : Char) : Bool := c.toNat == 10 || c.toNat == 13

/-- JavaScript `String.trim`. -/
def jsTrim (l : List Char) : List Char :=
  ((l.dropWhile isJsWs).reverse.dropWhile isJsWs).reverse

/-- Lower-case every character. -/
def lowL (l : List Char) : List Char := l.map lowC

/-- First element of a list, if it satisfies the test. -/
def headIs (p : Char → Bool) (l : List Char) : Bool :=
  match l with
  | [] => false
  | c :: _ => p c

/-! ## contentDetector.ts -/

/-- The table `MERMAID_KEYWORDS` from `contentDetector.ts`. -/
def MERMAID_KEYWORDS : List (List Char) :=
  ["graph".data, "flowchart".data, "sequenceDiagram".data, "classDiagram".data,
   "stateDiagram".data, "stateDiagram-v2".data, "erDiagram".data, "journey".data,
   "gantt".data, "pie".data, "quadrantChart".data, "requirementDiagram".data,
   "gitGraph".data, "mindmap".data, "timeline".data, "zenuml".data,
   "sankey-beta".data, "xychart-beta".data, "block-beta".data, "packet-beta".data,
   "kanban".data, "architecture-beta".data]

/-- `MERMAID_KEYWORDS_LOWER`. -/
def MERMAID_KEYWORDS_LOWER : List (List Char) := MERMAID_KEYWORDS.map lowL

/-- `looksLikeMermaid` from `contentDetector.ts`: does the trimmed,
lower-cased first line start with a known diagram keyword. -/
def looksLikeMermaid (text : List Char) : Bool :=
  let trimmed := jsTrim text
  if trimmed.isEmpty then false
  else
    let firstLine := lowL (jsTrim (trimmed.takeWhile (fun c => !(c == '\n'))))
    (MERMAID_KEYWORDS_LOWER.any (fun k =>
      firstLine == k || (k ++ [' ']).isPrefixOf firstLine ||
      (k ++ ['\t']).isPrefixOf firstLine)) ||
    (firstLine == "gitgraph".data || firstLine == "sequencediagram".data ||
     firstLine == "classdiagram".data || firstLine == "statediagram".data ||
     firstLine == "erdiagram".data ||
     "graph ".data.isPrefixOf firstLine || "flowchart ".data.isPrefixOf firstLine)

/-- Case-insensitive literal match of `pat` at the head of `l`. -/
def ciAt (pat : List Char) (l : List Char) : Bool :=
  (l.take pat.length).map lowC == pat

/-- The fence token plus language tag, lower case: the literal the regexes
`/```mermaid\s*\n/i` and `/```mermaid/gi` look for. -/
def fenceTag : List Char := "```mermaid".data

/-- One candidate position of `/```mermaid\s*\n/i`: the tag matches here
case-insensitively and the whitespace run that follows contains a `\n`. -/
def fenceNlAt (l : List Char) : Bool :=
  ciAt fenceTag l && ((l.drop fenceTag.length).takeWhile isJsWs).contains '\n'

/-- `containsMermaidBlocks` from `contentDetector.ts`:
`/```mermaid\s*\n/i.test(text)`. -/
def containsMermaidBlocks (text : List Char) : Bool :=
  text.tails.any fenceNlAt

/-- Scanner for `text.match(/```mermaid/gi)`: non-overlapping,
left-to-right count of tag occurrences (over fuel; `fuel ≥ length`
suffices). -/
def countMermaidBlocksF : Nat → List Char → Nat
  | 0, _ => 0
  | _ + 1, [] => 0
  | fuel + 1, c :: cs =>
    if ciAt fenceTag (c :: cs) then
      1 + countMermaidBlocksF fuel ((c :: cs).drop 10)
    else countMermaidBlocksF fuel cs

/-- `countMermaidBlocks` from `contentDetector.ts`. -/
def countMermaidBlocks (text : List Char) : Nat :=
  countMermaidBlocksF text.length text

/-- Does any suffix of `l` satisfy `p` (an unanchored regex test). -/
def anyPos (p : List Char → Bool) (l : List Char) : Bool := l.tails.any p

/-- Does `p` hold at some `^`-position of a multiline regex: at the very
start, or right after a line terminator. -/
def anyLineStartGo (p : List Char → Bool) : Bool → List Char → Bool
  | atStart, [] => atStart && p []
  | atStart, c :: cs => (atStart && p (c :: cs)) || anyLineStartGo p (isLineTermJs c) cs

def anyLineStart (p : List Char → Bool) (l : List Char) : Bool :=
  anyLineStartGo p true l

/-- Does `p` hold at some position reachable from a `^`-position through
`\s*` (used for the `/^\s*…/m` patterns, whose `\s*` may span lines). -/
def anyWsLineGo (p : List Char → Bool) : Bool → List Char → Bool
  | ws, [] => ws && p []
  | ws, c :: cs =>
    (ws && p (c :: cs)) ||
    anyWsLineGo p (if isLineTermJs c then true else ws && isJsWs c) cs

def anyWsLine (p : List Char → Bool) (l : List Char) : Bool :=
  anyWsLineGo p true l

/-- `/^#{1,6}\s/m` at one line start. -/
def pHeader (l : List Char) : Bool :=
  let k := (l.takeWhile (fun c => c == '#')).length
  decide (1 ≤ k) && decide (k ≤ 6) && headIs isJsWs (l.drop k)

/-- `[-*+]\s` at one position (after `^\s*`). -/
def pBullet (l : List Char) : Bool :=
  match l with
  | a :: b :: _ => (a == '-' || a == '*' || a == '+') && isJsWs b
  | _ => false

/-- `\d+\.\s` at one position (after `^\s*`). -/
def pOrdered (l : List Char) : Bool :=
  let ds := l.takeWhile isDigitC
  !ds.isEmpty &&
    (match l.drop ds.length with
     | '.' :: rest => headIs isJsWs rest
     | _ => false)

/-- Search for a closing `ch` after at least one `.`-class character. -/
def singleCloseScan (ch : Char) : Bool → List Char → Bool
  | _, [] => false
  | seen, c :: cs => (seen && c == ch) || (isDotChar c && singleCloseScan ch true cs)

/-- Search for a closing doubled `ch` after at least one `.`-class char. -/
def doubleCloseScan (ch : Char) : Bool → List Char → Bool
  | _, [] => false
  | seen, c :: cs =>
    (seen && c == ch && headIs (fun d => d == ch) cs) ||
    (isDotChar c && doubleCloseScan ch true cs)

/-- After `[`: search for `](` (with content before when `seen` starts
false) followed by `.+?` and `)`. -/
def linkCloseScan : Bool → List Char → Bool
  | _, [] => false
  | seen, c :: cs =>
    (seen && c == ']' &&
      (match cs with
       | '(' :: r => singleCloseScan ')' false r
       | _ => false)) ||
    (isDotChar c && linkCloseScan true cs)

/-- `/\[.+?\]\(.+?\)/` at one position. -/
def pLink (l : List Char) : Bool :=
  match l with
  | '[' :: r => linkCloseScan false r
  | _ => false

/-- `/!\[.*?\]\(.+?\)/` at one position. -/
def pImage (l : List Char) : Bool :=
  match l with
  | '!' :: '[' :: r => linkCloseScan true r
  | _ => false

/-- `/\*\*.+?\*\*/` at one position. -/
def pBold (l : List Char) : Bool :=
  match l with
  | '*' :: '*' :: r => doubleCloseScan '*' false r
  | _ => false

/-- `/\*.+?\*/` at one position. -/
def pItalic (l : List Char) : Bool :=
  match l with
  | '*' :: r => singleCloseScan '*' false r
  | _ => false

/-- `/~~.+?~~/` at one position. -/
def pStrike (l : List Char) : Bool :=
  match l with
  | '~' :: '~' :: r => doubleCloseScan '~' false r
  | _ => false

/-- `/^>\s/m` at one line start. -/
def pBlockquote (l : List Char) : Bool :=
  match l with
  | '>' :: rest => headIs isJsWs rest
  | _ => false

/-- After an initial `|`: search `.+\|.+\|` (two further pipes, each with
at least one `.`-class character before it). -/
def pipe2Scan : Bool → List Char → Bool
  | _, [] => false
  | seen, c :: cs =>
    (seen && c == '|' && singleCloseScan '|' false cs) ||
    (isDotChar c && pipe2Scan true cs)

/-- `/\|.+\|.+\|/` at one position. -/
def pTable (l : List Char) : Bool :=
  match l with
  | '|' :: r => pipe2Scan false r
  | _ => false

/-- `/^---+$/m` at one line start. -/
def pHr (l : List Char) : Bool :=
  let k := (l.takeWhile (fun c => c == '-')).length
  decide (3 ≤ k) &&
    (match l.drop k with
     | [] => true
     | c :: _ => isLineTermJs c)

/-- `/^===+$/m` at one line start. -/
def pEq (l : List Char) : Bool :=
  let k := (l.takeWhile (fun c => c == '=')).length
  decide (3 ≤ k) &&
    (match l.drop k with
     | [] => true
     | c :: _ => isLineTermJs c)

/-- A literal triple backtick at the head. -/
def tripleBq (l : List Char) : Bool := "```".data.isPrefixOf l

/-- `/```[\s\S]*?```/`: two non-overlapping triple backticks. -/
def pCodeBlock (text : List Char) : Bool :=
  text.tails.any (fun s => tripleBq s && (s.drop 3).tails.any tripleBq)

/-- `/`[^`]+`/` at one position: a backtick, a non-backtick, and a later
backtick with no backtick between. -/
def pInlineCode (l : List Char) : Bool :=
  match l with
  | b :: c :: r => b == '`' && !(c == '`') && r.contains '`'
  | _ => false

/-- `- \[[ x]\]` at one position (after `^\s*`). -/
def pTask (l : List Char) : Bool :=
  match l with
  | '-' :: ' ' :: '[' :: x :: ']' :: _ => x == ' ' || x == 'x'
  | _ => false

/-- `hasMarkdownFeatures` from `contentDetector.ts`: each regex of
`mdPatterns` is tested; at least one must match. -/
def hasMarkdownFeatures (text : List Char) : Bool :=
  let ps : List Bool :=
    [anyLineStart pHeader text,
     anyWsLine pBullet text,
     anyWsLine pOrdered text,
     anyPos pLink text,
     anyPos pImage text,
     anyPos pBold text,
     anyPos pItalic text,
     anyPos pStrike text,
     anyLineStart pBlockquote text,
     anyPos pTable text,
     anyLineStart pHr text,
     anyLineStart pEq text,
     pCodeBlock text,
     anyPos pInlineCode text,
     anyWsLine pTask text]
  decide (1 ≤ ps.countP id)

/-- The `type` field of a `DetectionResult`. -/
inductive ContentType where
  | markdown | mermaid | mixed | empty
  deriving DecidableEq, Repr

/-- `DetectionResult` from `contentDetector.ts` (presentation-only fields
such as emoji and Tailwind classes are omitted as opaque). -/
structure DetectionResult where
  type : ContentType
  label : String
  mermaidBlockCount : Nat
  wasAutoWrapped : Bool
  wasAutoFixed : Bool
  fixes : List String
  deriving DecidableEq, Repr

/-- `detectContentType` from `contentDetector.ts`. -/
def detectContentType (text : List Char) : DetectionResult :=
  let trimmed := jsTrim text
  if trimmed.isEmpty then
    ⟨.empty, "Empty", 0, false, false, []⟩
  else
    let hasMD := hasMarkdownFeatures trimmed
    let hasMermaidBlocks := containsMermaidBlocks trimmed
    let isRawMermaid := looksLikeMermaid trimmed
    let blockCount := countMermaidBlocks trimmed
    if isRawMermaid && !hasMD && !hasMermaidBlocks then
      ⟨.mermaid, "Raw Mermaid", 1, true, false,
        ["Auto-wrapped in ```mermaid code fence"]⟩
    else if hasMD && (hasMermaidBlocks || isRawMermaid) then
      ⟨.mixed, "Markdown + Mermaid",
        (if blockCount ≠ 0 then blockCount else if isRawMermaid then 1 else 0),
        false, false, []⟩
    else if hasMermaidBlocks && !hasMD then
      ⟨.mixed, "Fenced Mermaid", blockCount, false, false, []⟩
    else if hasMD && !hasMermaidBlocks && !isRawMermaid then
      ⟨.markdown, "Markdown", 0, false, false, []⟩
    else
      ⟨.markdown, "Text", 0, false, false, []⟩

/-! ## mermaidFixer.ts -/

/-- The zero-width characters of fix 0: `[​‌‍﻿]`. -/
def isZeroWidth (c : Char) : Bool :=
  c.toNat == 0x200B || c.toNat == 0x200C || c.toNat == 0x200D || c.toNat == 0xFEFF

/-- `code.replace(/^﻿/, "")`: drop one leading BOM. -/
def bomStrip (l : List Char) : List Char :=
  match l with
  | [] => []
  | c :: r => if c.toNat == 0xFEFF then r else c :: r

/-- Fix 0 of `fixMermaidCode`: strip a leading BOM, then every zero-width
character. -/
def stripInvisible (l : List Char) : List Char :=
  (bomStrip l).filter (fun c => !(isZeroWidth c))

/-- Word-boundary test after a keyword (keywords end in a letter, so `\b`
holds exactly when the next character is not a word character). -/
def wordBoundaryB (l : List Char) : Bool :=
  match l with
  | [] => true
  | c :: _ => !(isWordChar c)

/-- Match attempt of `/^(\s*)(keyword…)(-v2)?\b/i` at one position,
computed on the lower-cased text: returns the length of the `\s*` run
when the keyword — case-insensitively, with its optional `-v2` suffix
backtracking into the word boundary — matches right after the run. -/
def capsTryLow (kw : List Char) (hasV2 : Bool) (low : List Char) : Option Nat :=
  let run := low.takeWhile isJsWs
  let r := low.drop run.length
  if kw.isPrefixOf r then
    let after := r.drop kw.length
    if (hasV2 && "-v2".data.isPrefixOf after) || wordBoundaryB after then
      some run.length
    else none
  else none

def capsTry (kw : List Char) (hasV2 : Bool) (z : List Char) : Option Nat :=
  capsTryLow kw hasV2 (lowL z)

/-- Position of the first match of the capitalization regex: with the `m`
flag, `^` anchors at the start of the text and after every line
terminator. -/
def capsFindPos (kw : List Char) (hasV2 : Bool) : Bool → List Char → Option Nat
  | atStart, [] => if atStart && (capsTry kw hasV2 []).isSome then some 0 else none
  | atStart, c :: cs =>
    if atStart && (capsTry kw hasV2 (c :: cs)).isSome then some 0
    else (capsFindPos kw hasV2 (isLineTermJs c) cs).map (· + 1)

/-- One capitalization rule of `fixMermaidCode` (fixes 1–5): find the
first match; when its keyword text is not exactly `canon`, replace that
keyword text by `canon` (the `$1` run and the `$3` suffix are re-emitted
unchanged) and report the matched text. -/
def capsApply (kw canon : List Char) (hasV2 : Bool) (code : List Char) :
    List Char × Option (List Char) :=
  match capsFindPos kw hasV2 true code with
  | none => (code, none)
  | some p =>
    match capsTry kw hasV2 (code.drop p) with
    | none => (code, none)
    | some r =>
      let s := p + r
      let m := (code.drop s).take kw.length
      if m = canon then (code, none)
      else (code.take s ++ canon ++ code.drop (s + kw.length), some m)

/-- The text component of one capitalization rule. -/
def capsOut (kw canon : List Char) (hasV2 : Bool) (x : List Char) : List Char :=
  (capsApply kw canon hasV2 x).1

def capsMsg (canonName : String) (m : List Char) : String :=
  "Fixed capitalization: \"" ++ String.mk m ++ "\" → \"" ++ canonName ++ "\""

/-- Thread one capitalization rule through the (code, fixes) state. -/
def capsStep (kw canon : List Char) (hasV2 : Bool) (canonName : String)
    (st : List Char × List String) : List Char × List String :=
  match capsApply kw canon hasV2 st.1 with
  | (code, none) => (code, st.2)
  | (code, some m) => (code, st.2 ++ [capsMsg canonName m])

/-- Fixes 1–5 of `fixMermaidCode` in source order: gitGraph,
sequenceDiagram, classDiagram, stateDiagram (with `-v2`), erDiagram. -/
def capsStagesAll (st : List Char × List String) : List Char × List String :=
  capsStep "erdiagram".data "erDiagram".data false "erDiagram"
    (capsStep "statediagram".data "stateDiagram".data true "stateDiagram"
      (capsStep "classdiagram".data "classDiagram".data false "classDiagram"
        (capsStep "sequencediagram".data "sequenceDiagram".data false "sequenceDiagram"
          (capsStep "gitgraph".data "gitGraph".data false "gitGraph" st))))

/-- The text transformation of the five capitalization rules, in source
order. -/
def capsAllOut (code : List Char) : List Char :=
  capsOut "erdiagram".data "erDiagram".data false
    (capsOut "statediagram".data "stateDiagram".data true
      (capsOut "classdiagram".data "classDiagram".data false
        (capsOut "sequencediagram".data "sequenceDiagram".data false
          (capsOut "gitgraph".data "gitGraph".data false code))))

/-- Group 1 of the merge regexes, `[ \t]*(?:commit|merge)[ \t]+.*`, at a
line start; `merge` is only an alternative for the tag rule. -/
def commitLineAt (allowMerge : Bool) (l : List Char) : Option (List Char × List Char) :=
  let ind := l.takeWhile isTabSpace
  let r1 := l.drop ind.length
  let kw : Option (List Char) :=
    if "commit".data.isPrefixOf r1 then some "commit".data
    else if allowMerge && "merge".data.isPrefixOf r1 then some "merge".data
    else none
  match kw with
  | none => none
  | some k =>
    let r2 := r1.drop k.length
    let sp := r2.takeWhile isTabSpace
    if sp.isEmpty then none
    else
      let r3 := r2.drop sp.length
      let rest := r3.takeWhile isDotChar
      some (ind ++ k ++ sp ++ rest, r3.drop rest.length)

/-- Group 2 of the tag rule, `[ \t]+tag:[ \t]+"[^"]*"`. -/
def tagClauseAt (l : List Char) : Option (List Char × List Char) :=
  let w1 := l.takeWhile isTabSpace
  if w1.isEmpty then none
  else
    let r1 := l.drop w1.length
    if "tag:".data.isPrefixOf r1 then
      let r2 := r1.drop 4
      let w2 := r2.takeWhile isTabSpace
      if w2.isEmpty then none
      else
        let r3 := r2.drop w2.length
        match r3 with
        | [] => none
        | c :: r4 =>
          if c == '"' then
            let v := r4.takeWhile (fun ch => !(ch == '"'))
            match r4.drop v.length with
            | [] => none
            | d :: r5 =>
              if d == '"' then
                some (w1 ++ "tag:".data ++ w2 ++ c :: v ++ [d], r5)
              else none
          else none
    else none

/-- Group 2 of the type rule, `[ \t]+type:[ \t]+\w+`. -/
def typeClauseAt (l : List Char) : Option (List Char × List Char) :=
  let w1 := l.takeWhile isTabSpace
  if w1.isEmpty then none
  else
    let r1 := l.drop w1.length
    if "type:".data.isPrefixOf r1 then
      let r2 := r1.drop 5
      let w2 := r2.takeWhile isTabSpace
      if w2.isEmpty then none
      else
        let r3 := r2.drop w2.length
        let v := r3.takeWhile isWordChar
        if v.isEmpty then none
        else some (w1 ++ "type:".data ++ w2 ++ v, r3.drop v.length)
    else none

/-- A whole merge-regex match at a line start: group 1, at least one
`[\r\n]`, group 2; returns both groups and the remainder. -/
def mergeTryAt (allowMerge : Bool)
    (clause : List Char → Option (List Char × List Char))
    (l : List Char) : Option (List Char × List Char × List Char) :=
  match commitLineAt allowMerge l with
  | none => none
  | some (g1, r1) =>
    let nls := r1.takeWhile isCrLf
    if nls.isEmpty then none
    else
      match clause (r1.drop nls.length) with
      | none => none
      | some (g2, rest) => some (g1, g2, rest)

def tagTryAt (l : List Char) : Option (List Char × List Char × List Char) :=
  mergeTryAt true tagClauseAt l

def typeTryAt (l : List Char) : Option (List Char × List Char × List Char) :=
  mergeTryAt false typeClauseAt l

/-- One global-replace pass of a merge regex: scan left to right, attempt
a match at each `^`-position, and on success emit
`` `${commitLine} ${clause.trim()}` `` and continue after the match.
Structured over explicit fuel; `fuel ≥ length` suffices. -/
def mergePassF (tryA : List Char → Option (List Char × List Char × List Char)) :
    Nat → Bool → List Char → List Char × Nat
  | 0, _, l => (l, 0)
  | _ + 1, _, [] => ([], 0)
  | fuel + 1, atStart, c :: cs =>
    match (if atStart then tryA (c :: cs) else none) with
    | some (g1, g2, rest) =>
      let o := mergePassF tryA fuel false rest
      (g1 ++ ' ' :: jsTrim g2 ++ o.1, o.2 + 1)
    | none =>
      let o := mergePassF tryA fuel (isLineTermJs c) cs
      (c :: o.1, o.2)

/-- The `while (regex.test(code))` loop around a pass: repeat whole
passes until one finds no match; also over fuel. -/
def mergeLoopF (tryA : List Char → Option (List Char × List Char × List Char)) :
    Nat → List Char → List Char × Nat
  | 0, l => (l, 0)
  | fuel + 1, l =>
    let o := mergePassF tryA l.length true l
    if o.2 = 0 then (l, 0)
    else
      let o2 := mergeLoopF tryA fuel o.1
      (o2.1, o.2 + o2.2)

def tagPass (l : List Char) : List Char × Nat := mergePassF tagTryAt l.length true l

def typePass (l : List Char) : List Char × Nat := mergePassF typeTryAt l.length true l

def tagLoop (l : List Char) : List Char × Nat := mergeLoopF tagTryAt (l.length + 1) l

def typeLoop (l : List Char) : List Char × Nat := mergeLoopF typeTryAt (l.length + 1) l

def tagMsg (n : Nat) : String :=
  "Moved \"tag:\" to same line as \"commit\" (" ++ toString n ++ " fix" ++
    (if n > 1 then "es" else "") ++ ")"

def typeMsg (n : Nat) : String :=
  "Moved \"type:\" to same line as \"commit\" (" ++ toString n ++ " fix" ++
    (if n > 1 then "es" else "") ++ ")"

/-- `FixResult` from `mermaidFixer.ts`. -/
structure FixResult where
  output : List Char
  fixes : List String
  wasModified : Bool
  deriving DecidableEq, Repr

/-- `fixMermaidCode` from `mermaidFixer.ts`: strip invisible characters,
normalize the five diagram keywords, then merge stray `tag:` and `type:`
clauses. -/
def fixMermaidCode (source : List Char) : FixResult :=
  let code0 := stripInvisible source
  let fixes0 : List String :=
    if code0.length ≠ source.length then
      ["Removed invisible characters (BOM/zero-width)"]
    else []
  let st5 := capsStagesAll (code0, fixes0)
  let t6 := tagLoop st5.1
  let fixes6 := st5.2 ++ (if t6.2 > 0 then [tagMsg t6.2] else [])
  let t7 := typeLoop t6.1
  let fixes7 := fixes6 ++ (if t7.2 > 0 then [typeMsg t7.2] else [])
  { output := t7.1, fixes := fixes7, wasModified := !fixes7.isEmpty }

/-- Group 1 of `/(```mermaid\s*\n)([\s\S]*?)(```)/gi` at one position:
the tag case-insensitively, then the greedy `\s*` backtracking to the
last `\n` of the whitespace run; returns the matched opening text and
the remainder. -/
def fenceOpenAt (l : List Char) : Option (List Char × List Char) :=
  if ciAt fenceTag l then
    let rest := l.drop 10
    let run := rest.takeWhile isJsWs
    if run.contains '\n' then
      let k := run.length - (run.reverse.takeWhile (fun c => !(c == '\n'))).length
      some (l.take 10 ++ run.take k, rest.drop k)
    else none
  else none

/-- Split at the first literal triple backtick: the lazy
`([\s\S]*?)(```)` part of the block regex. -/
def splitFence (l : List Char) : Option (List Char × List Char) :=
  match l with
  | [] => none
  | c :: cs =>
    if tripleBq (c :: cs) then some ([], (c :: cs).drop 3)
    else
      match splitFence cs with
      | some (b, a) => some (c :: b, a)
      | none => none

/-- The global replace over all fenced blocks in a document: find each
block, fix its body, splice the corrected body back only when fixes were
reported, and collect all fix messages in document order. -/
def fixBlocksF : Nat → List Char → List Char × List String
  | 0, l => (l, [])
  | _ + 1, [] => ([], [])
  | fuel + 1, c :: cs =>
    match fenceOpenAt (c :: cs) with
    | some (opening, rest) =>
      (match splitFence rest with
       | some (body, after) =>
         let fr := fixMermaidCode body
         let o := fixBlocksF fuel after
         if fr.fixes.isEmpty then (opening ++ body ++ "```".data ++ o.1, o.2)
         else (opening ++ fr.output ++ "```".data ++ o.1, fr.fixes ++ o.2)
       | none =>
         let o := fixBlocksF fuel cs
         (c :: o.1, o.2))
    | none =>
      let o := fixBlocksF fuel cs
      (c :: o.1, o.2)

def fixBlocks (l : List Char) : List Char × List String := fixBlocksF l.length l

/-- `fixMermaidInDocument` from `mermaidFixer.ts`. -/
def fixMermaidInDocument (fullText : List Char) (isRawMermaid : Bool) : FixResult :=
  if isRawMermaid then
    let fr := fixMermaidCode fullText
    { output := "```mermaid\n".data ++ fr.output ++ "\n```".data,
      fixes := "Auto-wrapped raw Mermaid in ```mermaid code fence" :: fr.fixes,
      wasModified := true }
  else
    let o := fixBlocks fullText
    { output := o.1, fixes := o.2, wasModified := !o.2.isEmpty }

/-- A document, segmented as the block-fixing scan sees it: plain
characters outside blocks, and fenced blocks (opening + body; the
closing triple backtick is implicit). -/
inductive DocSeg where
  | raw (c : Char)
  | blk (opening body : List Char)
  deriving DecidableEq

/-- The original text of a segment. -/
def segText : DocSeg → List Char
  | .raw c => [c]
  | .blk o b => o ++ b ++ "```".data

/-- The text of a segment after the document fixer processed it. -/
def segOut : DocSeg → List Char
  | .raw c => [c]
  | .blk o b =>
    if (fixMermaidCode b).fixes.isEmpty then o ++ b ++ "```".data
    else o ++ (fixMermaidCode b).output ++ "```".data

/-- The fix messages a segment contributes. -/
def segFixes : DocSeg → List String
  | .raw _ => []
  | .blk _ b => (fixMermaidCode b).fixes

/-- A block whose body the fixer does not change is emitted
byte-identically. -/
def segUnchangedOk : DocSeg → Bool
  | .raw _ => true
  | .blk o b =>
    !((fixMermaidCode b).output == b) ||
      (segOut (.blk o b) == segText (.blk o b))

/-- Segmentation scan, mirroring `fixBlocksF` step for step. -/
def docSegsF : Nat → List Char → List DocSeg
  | 0, l => l.map DocSeg.raw
  | _ + 1, [] => []
  | fuel + 1, c :: cs =>
    match fenceOpenAt (c :: cs) with
    | some (opening, rest) =>
      (match splitFence rest with
       | some (body, after) => DocSeg.blk opening body :: docSegsF fuel after
       | none => DocSeg.raw c :: docSegsF fuel cs)
    | none => DocSeg.raw c :: docSegsF fuel cs

def docSegments (l : List Char) : List DocSeg := docSegsF l.length l

/-- Test of the whole block regex `(```mermaid\s*\n)([\s\S]*?)(```)`:
some position carries an opening match followed by a closing fence. -/
def hasCompleteMermaidBlock (l : List Char) : Bool :=
  l.tails.any (fun s =>
    ((fenceOpenAt s).map (fun pr => (splitFence pr.2).isSome)).getD false)

/-! ## Spec-side (claim-side) reference definitions

These follow the words of the specification claims, to be compared with
the source-embedding definitions above. -/

/-- Claim side of C8: a fence token at the start of a line, immediately
followed by the diagram-language tag (case-insensitively), optional
whitespace and a newline. -/
def specLineStartFence (text : List Char) : Bool :=
  anyLineStart fenceNlAt text

/-- Claim side of C5: a line that carries exactly one `tag: "…"` clause
and nothing else (up to surrounding whitespace). -/
def isTagAloneLine (ln : List Char) : Bool :=
  let t := jsTrim ln
  if "tag:".data.isPrefixOf t then
    let r2 := (t.drop 4).dropWhile isTabSpace
    match r2 with
    | '"' :: r3 =>
      let v := r3.takeWhile (fun c => !(c == '"'))
      r3.drop v.length == ['"']
    | _ => false
  else false

/-- Claim side of C5: a line whose content begins with `commit` or
`merge`. -/
def isCommitishLine (ln : List Char) : Bool :=
  let t := ln.dropWhile isTabSpace
  "commit".data.isPrefixOf t || "merge".data.isPrefixOf t

/-- Claim side of C5: some `tag:` clause alone on a line immediately
follows a `commit`/`merge` line. -/
def specTagPairLines : List (List Char) → Bool
  | a :: b :: r => (isCommitishLine a && isTagAloneLine b) || specTagPairLines (b :: r)
  | _ => false

def specTagPairExists (text : List Char) : Bool :=
  specTagPairLines (text.splitOn '\n')

/-- Position `q` of `x` is a valid `^`-position for a multiline regex:
the very start (when permitted by `st`) or right after a line
terminator. -/
def okAtLineStart (st : Bool) (x : List Char) (q : Nat) : Prop :=
  if q = 0 then st = true
  else ∃ c, x[q - 1]? = some c ∧ isLineTermJs c = true

/-- Claim side of amended C8: the number of positions at which the fence
token + tag occurs case-insensitively, regardless of what follows. -/
def specFenceCount (text : List Char) : Nat :=
  (List.range text.length).countP (fun i => ciAt fenceTag (text.drop i))

/-- Decidable pattern check: no occurrence of `pat₂` can start at offset
`d ≥ d₀` inside an occurrence of `pat₁`. -/
def overlapFreeFrom (d₀ : Nat) (pat₁ pat₂ : List Char) : Bool :=
  (List.range pat₁.length).all (fun d =>
    decide (d < d₀) ||
    ((pat₁.drop d).take (min pat₂.length (pat₁.length - d)) !=
      pat₂.take (min pat₂.length (pat₁.length - d))))

/-- One capitalization rule of fixes 1–5: lower-case keyword, canonical
spelling, `-v2` suffix flag, and the reported name. -/
def CapsRule : Type := List Char × List Char × Bool × String

/-- The five rules in source order. -/
def capsRules : List CapsRule :=
  [("gitgraph".data, "gitGraph".data, false, "gitGraph"),
   ("sequencediagram".data, "sequenceDiagram".data, false, "sequenceDiagram"),
   ("classdiagram".data, "classDiagram".data, false, "classDiagram"),
   ("statediagram".data, "stateDiagram".data, true, "stateDiagram"),
   ("erdiagram".data, "erDiagram".data, false, "erDiagram")]

/-- `capsStep` applied to a rule tuple. -/
def capsStepR (r : CapsRule) (st : List Char × List String) : List Char × List String :=
  capsStep r.1 r.2.1 r.2.2.1 r.2.2.2 st

/-- A list of capitalization rules threaded left to right through the
(code, fixes) state. -/
def capsStagesL (rs : List CapsRule) (st : List Char × List String) :
    List Char × List String :=
  rs.foldl (fun acc r => capsStepR r acc) st

/-- Well-formedness of a rule: nonempty keyword, whose canonical spelling
is a case variant of equal length, both free of backticks. -/
def ruleOK (r : CapsRule) : Bool :=
  decide (r.1 ≠ []) && decide (lowL r.2.1 = r.1) &&
    decide (r.2.1.length = r.1.length) &&
    decide (('`' : Char) ∉ r.1) && decide (('`' : Char) ∉ r.2.1)

/-- Keywords of two rules cannot overlap in a text, in either order. -/
def rulesApart (r r' : CapsRule) : Bool :=
  overlapFreeFrom 0 r.1 r'.1 && overlapFreeFrom 0 r'.1 r.1

/-- Every pair of rules in the list is overlap-free. -/
def rulesApartAll : List CapsRule → Bool
  | [] => true
  | r :: rs => rs.all (fun r' => rulesApart r r') && rulesApartAll rs

/-- The number of backtick characters of a text: the merge and
capitalization stages preserve it, and wrapping adds the six fence
backticks. -/
def countBq (l : List Char) : Nat := l.countP (fun c => c == '`')

/-! ## Theorems -/

/-- Occurrences of two patterns in the same list agree on their
intersection: the slice of `pat₁` starting at the offset of `pat₂`
equals the corresponding prefix of `pat₂`. -/
theorem slice_overlap {l : List Char} {s₁ s₂ : Nat} (n₁ n₂ : Nat) (hord : s₁ ≤ s₂) :
    (((l.drop s₁).take n₁).drop (s₂ - s₁)).take (min n₂ (n₁ - (s₂ - s₁))) =
      ((l.drop s₂).take n₂).take (min n₂ (n₁ - (s₂ - s₁))) := by
  rw [List.drop_take, List.drop_drop]
  have hs : s₁ + (s₂ - s₁) = s₂ := by omega
  rw [hs, List.take_take, List.take_take]
  congr 1
  omega

theorem occ_overlap {pat₁ pat₂ l : List Char} {s₁ s₂ : Nat}
    (h₁ : (l.drop s₁).take pat₁.length = pat₁)
    (h₂ : (l.drop s₂).take pat₂.length = pat₂)
    (hord : s₁ ≤ s₂) :
    (pat₁.drop (s₂ - s₁)).take (min pat₂.length (pat₁.length - (s₂ - s₁))) =
      pat₂.take (min pat₂.length (pat₁.length - (s₂ - s₁))) := by
  have h := @slice_overlap l s₁ s₂ pat₁.length pat₂.length hord
  rwa [h₁, h₂] at h

/-- If `overlapFreeFrom d₀ pat₁ pat₂` holds, an occurrence of `pat₂` at
`s₂` cannot start strictly inside an occurrence of `pat₁` at `s₁ ≤ s₂`
with offset at least `d₀`. -/
theorem no_overlap_of_free {d₀ : Nat} {pat₁ pat₂ l : List Char} {s₁ s₂ : Nat}
    (hfree : overlapFreeFrom d₀ pat₁ pat₂ = true)
    (h₁ : (l.drop s₁).take pat₁.length = pat₁)
    (h₂ : (l.drop s₂).take pat₂.length = pat₂)
    (hord : s₁ ≤ s₂) (hd₀ : d₀ ≤ s₂ - s₁) :
    ¬ s₂ < s₁ + pat₁.length := by
  intro hover
  have hocc := occ_overlap h₁ h₂ hord
  have hd : s₂ - s₁ ∈ List.range pat₁.length := List.mem_range.mpr (by omega)
  have hall := (List.all_eq_true.mp hfree) _ hd
  simp only [Bool.or_eq_true, decide_eq_true_eq, bne_iff_ne, ne_eq] at hall
  rcases hall with h | h
  · omega
  · exact h hocc

/-- `ciAt` at position `i` is an occurrence of the pattern in the
lower-cased text. -/
theorem ciAt_eq_occ (pat l : List Char) (i : Nat) :
    ciAt pat (l.drop i) = true ↔ ((lowL l).drop i).take pat.length = pat := by
  simp [ciAt, lowL]

/-- The fence token + tag does not overlap itself at a nonzero offset. -/
theorem fenceTag_selfFree : overlapFreeFrom 1 fenceTag fenceTag = true := by
  decide

/-- The non-overlapping scanner count equals the number of positions at
which the fence token + tag occurs (the tag cannot overlap itself). -/
theorem countMermaidBlocksF_eq (fuel : Nat) :
    ∀ l : List Char, l.length ≤ fuel →
      countMermaidBlocksF fuel l =
        (List.range l.length).countP (fun i => ciAt fenceTag (l.drop i)) := by
  induction fuel with
  | zero =>
    intro l hl
    have h : l = [] := List.length_eq_zero.mp (Nat.le_zero.mp hl)
    subst h; rfl
  | succ fuel ih =>
    intro l hl
    match l with
    | [] => rfl
    | c :: cs =>
      by_cases hc : ciAt fenceTag (c :: cs) = true
      · have hlen : fenceTag.length = 10 := by decide
        have hocc0 : ((lowL (c :: cs)).drop 0).take fenceTag.length = fenceTag :=
          (ciAt_eq_occ fenceTag (c :: cs) 0).mp (by simpa using hc)
        have h10 : 10 ≤ (c :: cs).length := by
          have hlenf := congrArg List.length hocc0
          simp only [List.length_take, List.length_drop, lowL, List.length_map,
            hlen] at hlenf
          omega
        have hF : ∀ i, 1 ≤ i → i ≤ 9 → ciAt fenceTag ((c :: cs).drop i) = false := by
          intro i hi1 hi9
          by_contra hne
          have hii : ciAt fenceTag ((c :: cs).drop i) = true := by
            cases hh : ciAt fenceTag ((c :: cs).drop i)
            · exact absurd hh hne
            · rfl
          have hocci := (ciAt_eq_occ fenceTag (c :: cs) i).mp hii
          have := no_overlap_of_free fenceTag_selfFree hocc0 hocci
            (Nat.zero_le i) (by omega)
          rw [hlen] at this
          omega
        have hunf : countMermaidBlocksF (fuel + 1) (c :: cs) =
            1 + countMermaidBlocksF fuel ((c :: cs).drop 10) := by
          simp [countMermaidBlocksF, hc]
        rw [hunf]
        have hsp : (c :: cs).length = 10 + ((c :: cs).length - 10) := by omega
        rw [hsp, List.range_add, List.countP_append, List.countP_map]
        simp only [Function.comp_def]
        have hrtens : List.range 10 = [0, 1, 2, 3, 4, 5, 6, 7, 8, 9] := by rfl
        have hz : List.countP (fun i => ciAt fenceTag ((c :: cs).drop i))
            [1, 2, 3, 4, 5, 6, 7, 8, 9] = 0 := by
          rw [List.countP_eq_zero]
          intro a ha
          simp only [List.mem_cons, List.not_mem_nil, or_false] at ha
          have hab : 1 ≤ a ∧ a ≤ 9 := by
            rcases ha with h | h | h | h | h | h | h | h | h <;> omega
          simp [hF a hab.1 hab.2]
        have hone : List.countP (fun i => ciAt fenceTag ((c :: cs).drop i))
            (List.range 10) = 1 := by
          rw [hrtens]
          have : ([0, 1, 2, 3, 4, 5, 6, 7, 8, 9] : List Nat) =
              [0] ++ [1, 2, 3, 4, 5, 6, 7, 8, 9] := rfl
          rw [this, List.countP_append, hz, List.countP_cons]
          simp [hc]
        rw [hone]
        have hsecond : List.countP (fun i => ciAt fenceTag ((c :: cs).drop (10 + i)))
            (List.range ((c :: cs).length - 10)) =
            List.countP (fun i => ciAt fenceTag (((c :: cs).drop 10).drop i))
            (List.range (((c :: cs).drop 10).length)) := by
          rw [List.length_drop]
          apply List.countP_congr
          intro x _
          rw [List.drop_drop]
        have hfu : ((c :: cs).drop 10).length ≤ fuel := by
          have h1 := hl
          simp only [List.length_drop, List.length_cons] at h1 ⊢
          omega
        rw [hsecond, ih ((c :: cs).drop 10) hfu]
      · have hcf : ciAt fenceTag (c :: cs) = false := by
          cases hh : ciAt fenceTag (c :: cs)
          · rfl
          · exact absurd hh hc
        have hunf : countMermaidBlocksF (fuel + 1) (c :: cs) =
            countMermaidBlocksF fuel cs := by
          simp [countMermaidBlocksF, hcf]
        have hcs : cs.length ≤ fuel := by
          have := hl
          simp only [List.length_cons] at this
          omega
        rw [hunf, ih cs hcs]
        have hsp : (c :: cs).length = 1 + cs.length := by
          simp only [List.length_cons]
          omega
        rw [hsp, List.range_add, List.countP_append, List.countP_map]
        simp only [Function.comp_def]
        have h0 : List.countP (fun i => ciAt fenceTag ((c :: cs).drop i))
            (List.range 1) = 0 := by
          have hr1 : List.range 1 = [0] := rfl
          simp [hr1, List.countP_cons, hcf]
        rw [h0]
        have : List.countP (fun i => ciAt fenceTag ((c :: cs).drop (1 + i)))
            (List.range cs.length) =
            List.countP (fun i => ciAt fenceTag (cs.drop i)) (List.range cs.length) := by
          apply List.countP_congr
          intro x _
          have : (1 + x) = (x + 1) := by omega
          rw [this, List.drop_succ_cons]
        rw [this]
        omega

/-- **C4**: `fixDocument(text, true)` wraps `fixOne(text)`'s corrected
text in the fence delimiters, prepends the wrapped-in-fence message to
`fixOne(text)`'s fix list, and always sets `wasModified`, even when
`fixOne` made no internal change. -/
theorem C4_bare_wrap (text : List Char) :
    fixMermaidInDocument text true =
      { output := "```mermaid\n".data ++ (fixMermaidCode text).output ++ "\n```".data,
        fixes := "Auto-wrapped raw Mermaid in ```mermaid code fence" ::
          (fixMermaidCode text).fixes,
        wasModified := true } := by
  simp [fixMermaidInDocument]

/-- **C9, counterexample**: on the bare diagram `"gitGraph"` the
classifier returns kind Diagram with `diagramBlockCount = 1`, not `0` as
the claim states. -/
theorem C9_cex :
    (detectContentType "gitGraph".data).type = ContentType.mermaid ∧
    (detectContentType "gitGraph".data).mermaidBlockCount ≠ 0 := by
  decide

/-- **C9 (amended)**: whenever classify returns kind Diagram, the
returned `diagramBlockCount` is `1`. -/
theorem C9_diagram_count (text : List Char)
    (h : (detectContentType text).type = ContentType.mermaid) :
    (detectContentType text).mermaidBlockCount = 1 := by
  by_cases h0 : (jsTrim text).isEmpty <;>
  by_cases h1 : looksLikeMermaid (jsTrim text) <;>
  by_cases h2 : hasMarkdownFeatures (jsTrim text) <;>
  by_cases h3 : containsMermaidBlocks (jsTrim text) <;>
  simp_all [detectContentType]

/-- Witness for C9 at the concrete input `"gitGraph"`. -/
theorem C9_witness :
    (detectContentType "gitGraph".data).type = ContentType.mermaid ∧
    (detectContentType "gitGraph".data).mermaidBlockCount = 1 :=
  ⟨by decide, C9_diagram_count "gitGraph".data (by decide)⟩

/-- **C2, counterexample**: `fixOne` is not idempotent.  On
`"commit a\n  type: t\n  tag: \"v\""` the first call merges the `type:`
clause, which brings the commit line next to the `tag:` line, and only a
second call merges that tag. -/
theorem C2_cex :
    (fixMermaidCode (fixMermaidCode "commit a\n  type: t\n  tag: \"v\"".data).output).output ≠
      (fixMermaidCode "commit a\n  type: t\n  tag: \"v\"".data).output := by
  decide

/-- **C6, counterexample**: the capitalization rule is not restricted to
the first line — with the `m` flag it rewrites a keyword at the start of
any line, here line 2 of `"x\ngitgraph"`. -/
theorem C6_cex :
    (fixMermaidCode "x\ngitgraph".data).output = "x\ngitGraph".data ∧
    "x\ngitGraph".data ≠ "x\ngitgraph".data := by
  decide

/-- **C5, counterexample**: a `tag: "…"` clause alone on an unindented
line immediately following a `commit` line is not merged (the regex
requires at least one space or tab before `tag:`), so the fixer returns
the input unchanged and the pair remains. -/
theorem C5_cex :
    specTagPairExists "commit a\ntag: \"v\"".data = true ∧
    (fixMermaidCode "commit a\ntag: \"v\"".data).output = "commit a\ntag: \"v\"".data := by
  decide

/-- **C8, counterexample**: the delimited-block flag is set by
`"x```mermaid\nfoo"` even though no fence token starts a line, and the
Mixed case then reports block count 1 although there are no line-start
fences. -/
theorem C8_cex :
    containsMermaidBlocks (jsTrim "# T\nx```mermaid\nfoo".data) = true ∧
    specLineStartFence (jsTrim "# T\nx```mermaid\nfoo".data) = false ∧
    (detectContentType "# T\nx```mermaid\nfoo".data).type = ContentType.mixed ∧
    (detectContentType "# T\nx```mermaid\nfoo".data).mermaidBlockCount = 1 := by
  decide

/-- Declarative reading of the flag regex `/```mermaid\s*\n/i`: the text
decomposes around a case-insensitive fence tag followed by optional
whitespace and a newline, at any position. -/
theorem containsMermaidBlocks_iff (text : List Char) :
    containsMermaidBlocks text = true ↔
      ∃ a tag ws rest, text = a ++ tag ++ ws ++ '\n' :: rest ∧
        lowL tag = fenceTag ∧ ws.all isJsWs = true := by
  unfold containsMermaidBlocks
  rw [List.any_eq_true]
  constructor
  · rintro ⟨s, hmem, hp⟩
    rw [List.mem_tails] at hmem
    obtain ⟨a, ha⟩ := hmem
    unfold fenceNlAt at hp
    simp only [Bool.and_eq_true] at hp
    obtain ⟨hci, hco⟩ := hp
    have hmem2 : '\n' ∈ (s.drop fenceTag.length).takeWhile isJsWs := by
      simpa using hco
    obtain ⟨w1, w2, hw⟩ := List.append_of_mem hmem2
    refine ⟨a, s.take fenceTag.length, w1,
      w2 ++ (s.drop fenceTag.length).dropWhile isJsWs, ?_, ?_, ?_⟩
    · have hsd : s.drop fenceTag.length =
          w1 ++ '\n' :: (w2 ++ (s.drop fenceTag.length).dropWhile isJsWs) := by
        conv_lhs =>
          rw [← List.takeWhile_append_dropWhile isJsWs (s.drop fenceTag.length)]
          rw [hw]
        simp
      rw [← ha]
      conv_lhs =>
        rw [show s = s.take fenceTag.length ++ s.drop fenceTag.length from
          (List.take_append_drop _ _).symm]
        rw [hsd]
      simp
    · unfold ciAt at hci
      simpa [lowL] using hci
    · rw [List.all_eq_true]
      intro x hx
      exact List.mem_takeWhile_imp (hw ▸ List.mem_append_of_mem_left _ hx)
  · rintro ⟨a, tag, ws, rest, htext, htag, hws⟩
    refine ⟨tag ++ ws ++ '\n' :: rest, ?_, ?_⟩
    · rw [List.mem_tails]
      exact ⟨a, by rw [htext]; simp⟩
    · have hlt : tag.length = fenceTag.length := by
        have h := congrArg List.length htag
        simpa [lowL] using h
      unfold fenceNlAt
      rw [Bool.and_eq_true]
      constructor
      · have htake : (tag ++ (ws ++ '\n' :: rest)).take fenceTag.length = tag := by
          rw [← hlt]
          exact List.take_left _ _
        unfold ciAt
        rw [show tag ++ ws ++ '\n' :: rest = tag ++ (ws ++ '\n' :: rest) from by simp,
          htake]
        have : tag.map lowC = fenceTag := htag
        simp [this]
      · have hdrop : (tag ++ (ws ++ '\n' :: rest)).drop fenceTag.length =
            ws ++ '\n' :: rest := by
          rw [← hlt]
          exact List.drop_left _ _
        rw [show tag ++ ws ++ '\n' :: rest = tag ++ (ws ++ '\n' :: rest) from by simp,
          hdrop]
        have hwsall : ∀ x ∈ ws, isJsWs x := List.all_eq_true.mp hws
        rw [List.takeWhile_append_of_pos hwsall]
        have hnl : isJsWs '\n' = true := by decide
        simp [List.takeWhile_cons, hnl]

/-- **C8 (amended)**: the classifier's delimited-block flag is true
exactly when the text contains — at any position, not necessarily at a
line start — the fence token followed case-insensitively by the language
tag, optional whitespace, and a newline; and the block count equals the
number of case-insensitive occurrences of the fence token + tag,
regardless of whether a newline follows. -/
theorem C8_flag_and_count (text : List Char) :
    (containsMermaidBlocks text = true ↔
      ∃ a tag ws rest, text = a ++ tag ++ ws ++ '\n' :: rest ∧
        lowL tag = fenceTag ∧ ws.all isJsWs = true) ∧
    countMermaidBlocks text = specFenceCount text := by
  refine ⟨containsMermaidBlocks_iff text, ?_⟩
  unfold countMermaidBlocks specFenceCount
  exact countMermaidBlocksF_eq text.length text le_rfl

/-- **C1**: for every input whose trimmed form is non-empty, classify
returns kind Diagram exactly when the trimmed text is recognized as bare
diagram code
(`looksLikeMermaid`), has no prose markers and no delimited diagram
blocks; that case carries block count 1 and the auto-wrap advisory
fix. -/
theorem C1_diagram_iff (text : List Char) (h : jsTrim text ≠ []) :
    ((detectContentType text).type = ContentType.mermaid ↔
      (looksLikeMermaid (jsTrim text) = true ∧
       hasMarkdownFeatures (jsTrim text) = false ∧
       containsMermaidBlocks (jsTrim text) = false)) ∧
    ((detectContentType text).type = ContentType.mermaid →
      (detectContentType text).mermaidBlockCount = 1 ∧
      (detectContentType text).fixes = ["Auto-wrapped in ```mermaid code fence"]) := by
  have hne : (jsTrim text).isEmpty = false := by
    cases heq : jsTrim text with
    | nil => exact absurd heq h
    | cons a l => simp
  by_cases h1 : looksLikeMermaid (jsTrim text) <;>
  by_cases h2 : hasMarkdownFeatures (jsTrim text) <;>
  by_cases h3 : containsMermaidBlocks (jsTrim text) <;>
  simp [detectContentType, hne, h1, h2, h3]

/-- Witness for C1 at the concrete input `"gitGraph"`. -/
theorem C1_witness :
    jsTrim "gitGraph".data ≠ [] ∧
    (((detectContentType "gitGraph".data).type = ContentType.mermaid ↔
      (looksLikeMermaid (jsTrim "gitGraph".data) = true ∧
       hasMarkdownFeatures (jsTrim "gitGraph".data) = false ∧
       containsMermaidBlocks (jsTrim "gitGraph".data) = false)) ∧
    ((detectContentType "gitGraph".data).type = ContentType.mermaid →
      (detectContentType "gitGraph".data).mermaidBlockCount = 1 ∧
      (detectContentType "gitGraph".data).fixes =
        ["Auto-wrapped in ```mermaid code fence"])) :=
  ⟨by decide, C1_diagram_iff "gitGraph".data (by decide)⟩

/-! ### Case-invariance of the character classes -/

theorem charOfNat_toNat_shift (n : Nat) (h1 : 65 ≤ n) (h2 : n ≤ 90) :
    (Char.ofNat (n + 32)).toNat = n + 32 := by
  interval_cases n <;> decide

theorem lowC_cases (c : Char) :
    lowC c = c ∨ (65 ≤ c.toNat ∧ c.toNat ≤ 90 ∧ (lowC c).toNat = c.toNat + 32) := by
  unfold lowC
  by_cases h : 65 ≤ c.toNat ∧ c.toNat ≤ 90
  · exact Or.inr ⟨h.1, h.2, by rw [if_pos h]; exact charOfNat_toNat_shift _ h.1 h.2⟩
  · exact Or.inl (if_neg h)

theorem isJsWs_of_mid {c : Char} (h1 : 65 ≤ c.toNat) (h2 : c.toNat ≤ 122) :
    isJsWs c = false := by
  simp only [isJsWs, Bool.or_eq_false_iff, beq_eq_false_iff_ne, ne_eq]
  omega

theorem isLineTermJs_of_mid {c : Char} (h1 : 65 ≤ c.toNat) (h2 : c.toNat ≤ 122) :
    isLineTermJs c = false := by
  simp only [isLineTermJs, Bool.or_eq_false_iff, beq_eq_false_iff_ne, ne_eq]
  omega

theorem isWordChar_of_range {c : Char} (h1 : 65 ≤ c.toNat) (h2 : c.toNat ≤ 122)
    (h3 : c.toNat ≤ 90 ∨ 97 ≤ c.toNat) : isWordChar c = true := by
  simp only [isWordChar, Bool.or_eq_true, Bool.and_eq_true, decide_eq_true_eq,
    beq_iff_eq]
  omega

theorem isJsWs_lowC (c : Char) : isJsWs (lowC c) = isJsWs c := by
  rcases lowC_cases c with h | ⟨h1, h2, h3⟩
  · rw [h]
  · rw [isJsWs_of_mid (c := lowC c) (by omega) (by omega),
      isJsWs_of_mid h1 (by omega)]

theorem isLineTermJs_lowC (c : Char) : isLineTermJs (lowC c) = isLineTermJs c := by
  rcases lowC_cases c with h | ⟨h1, h2, h3⟩
  · rw [h]
  · rw [isLineTermJs_of_mid (c := lowC c) (by omega) (by omega),
      isLineTermJs_of_mid h1 (by omega)]

theorem isWordChar_lowC (c : Char) : isWordChar (lowC c) = isWordChar c := by
  rcases lowC_cases c with h | ⟨h1, h2, h3⟩
  · rw [h]
  · rw [isWordChar_of_range (c := lowC c) (by omega) (by omega) (by omega),
      isWordChar_of_range h1 (by omega) (by omega)]

/-! ### Structure of the capitalization rules -/

theorem capsFindPos_congr (kw : List Char) (hasV2 : Bool) :
    ∀ (x y : List Char) (st : Bool), lowL x = lowL y →
      capsFindPos kw hasV2 st x = capsFindPos kw hasV2 st y := by
  intro x
  induction x with
  | nil =>
    intro y st h
    have hy : y = [] := by
      have := h.symm
      simpa [lowL, List.map_eq_nil_iff] using this
    subst hy
    rfl
  | cons c cs ih =>
    intro y st h
    match y with
    | [] => simp [lowL] at h
    | d :: ds =>
      simp only [lowL, List.map_cons, List.cons.injEq] at h
      obtain ⟨hcd, hcds⟩ := h
      simp only [capsFindPos]
      have h1 : capsTry kw hasV2 (c :: cs) = capsTry kw hasV2 (d :: ds) := by
        unfold capsTry
        congr 1
        simp [lowL, hcd, hcds]
      have h2 : isLineTermJs c = isLineTermJs d := by
        rw [← isLineTermJs_lowC c, ← isLineTermJs_lowC d, hcd]
      rw [h1, h2, ih ds _ hcds]

theorem capsFindPos_some (kw : List Char) (hasV2 : Bool) :
    ∀ (x : List Char) (st : Bool) (p : Nat),
      capsFindPos kw hasV2 st x = some p →
      (capsTry kw hasV2 (x.drop p)).isSome = true := by
  intro x
  induction x with
  | nil =>
    intro st p h
    simp only [capsFindPos] at h
    by_cases hc : (st && (capsTry kw hasV2 ([] : List Char)).isSome) = true
    · rw [if_pos hc] at h
      cases h
      simpa using (Bool.and_eq_true _ _).mp hc |>.2
    · rw [if_neg hc] at h
      cases h
  | cons c cs ih =>
    intro st p h
    simp only [capsFindPos] at h
    by_cases hc : (st && (capsTry kw hasV2 (c :: cs)).isSome) = true
    · rw [if_pos hc] at h
      cases h
      simpa using (Bool.and_eq_true _ _).mp hc |>.2
    · rw [if_neg hc] at h
      obtain ⟨q, hq, hpq⟩ := Option.map_eq_some'.mp h
      subst hpq
      rw [List.drop_succ_cons]
      exact ih _ q hq

theorem capsTry_spec (kw : List Char) (hasV2 : Bool) (z : List Char) (r : Nat)
    (h : capsTry kw hasV2 z = some r) :
    ((lowL z).drop r).take kw.length = kw ∧ r + kw.length ≤ z.length := by
  unfold capsTry capsTryLow at h
  by_cases h1 : kw.isPrefixOf ((lowL z).drop ((lowL z).takeWhile isJsWs).length) = true
  · rw [if_pos h1] at h
    by_cases h2 : ((hasV2 && "-v2".data.isPrefixOf
        (((lowL z).drop ((lowL z).takeWhile isJsWs).length).drop kw.length)) ||
        wordBoundaryB (((lowL z).drop ((lowL z).takeWhile isJsWs).length).drop kw.length)) = true
    · rw [if_pos h2] at h
      cases h
      have hpre : kw <+: (lowL z).drop ((lowL z).takeWhile isJsWs).length :=
        List.isPrefixOf_iff_prefix.mp h1
      constructor
      · exact (List.prefix_iff_eq_take.mp hpre).symm
      · have hlelen : kw.length ≤ ((lowL z).drop ((lowL z).takeWhile isJsWs).length).length :=
          hpre.length_le
        have h3 : ((lowL z).takeWhile isJsWs).length ≤ (lowL z).length :=
          (List.takeWhile_prefix _).length_le
        have h4 : (lowL z).length = z.length := by simp [lowL]
        simp only [List.length_drop] at hlelen
        omega
    · rw [if_neg h2] at h
      cases h
  · rw [if_neg h1] at h
    cases h

theorem capsApply_unfired_none (kw canon : List Char) (hasV2 : Bool) (x : List Char)
    (hf : capsFindPos kw hasV2 true x = none) :
    capsApply kw canon hasV2 x = (x, none) := by
  simp [capsApply, hf]

theorem capsApply_unfired_canon (kw canon : List Char) (hasV2 : Bool) (x : List Char)
    (p r : Nat)
    (hf : capsFindPos kw hasV2 true x = some p)
    (ht : capsTry kw hasV2 (x.drop p) = some r)
    (hm : (x.drop (p + r)).take kw.length = canon) :
    capsApply kw canon hasV2 x = (x, none) := by
  simp [capsApply, hf, ht, hm]

theorem capsApply_fired (kw canon : List Char) (hasV2 : Bool) (x : List Char)
    (p r : Nat)
    (hf : capsFindPos kw hasV2 true x = some p)
    (ht : capsTry kw hasV2 (x.drop p) = some r)
    (hm : (x.drop (p + r)).take kw.length ≠ canon) :
    capsApply kw canon hasV2 x =
      (x.take (p + r) ++ canon ++ x.drop ((p + r) + kw.length),
       some ((x.drop (p + r)).take kw.length)) := by
  simp [capsApply, hf, ht, hm]

theorem capsFired_occ (kw : List Char) (hasV2 : Bool) (x : List Char) (p r : Nat)
    (hkw : kw ≠ [])
    (ht : capsTry kw hasV2 (x.drop p) = some r) :
    ((lowL x).drop (p + r)).take kw.length = kw ∧ (p + r) + kw.length ≤ x.length := by
  obtain ⟨hocc, hle⟩ := capsTry_spec kw hasV2 (x.drop p) r ht
  have hdd : (lowL x).drop (p + r) = (lowL (x.drop p)).drop r := by
    simp [lowL, List.drop_drop]
  constructor
  · rw [hdd]
    exact hocc
  · have hkl : 0 < kw.length := List.length_pos.mpr hkw
    simp only [List.length_drop] at hle
    omega

/-- Splitting a list around a slice. -/
theorem slice_decomp (x : List Char) (s k : Nat) :
    x = x.take s ++ (x.drop s).take k ++ x.drop (s + k) := by
  conv_lhs => rw [← List.take_append_drop s x]
  rw [List.append_assoc]
  congr 1
  conv_lhs => rw [← List.take_append_drop k (x.drop s)]
  rw [List.drop_drop]

/-- One capitalization rule either leaves the text unchanged, or replaces
exactly one case-insensitive occurrence of the keyword by the canonical
spelling. -/
theorem capsOut_cases (kw canon : List Char) (hasV2 : Bool) (hkw : kw ≠ [])
    (x : List Char) :
    capsOut kw canon hasV2 x = x ∨
    ∃ s, ((lowL x).drop s).take kw.length = kw ∧ s + kw.length ≤ x.length ∧
      (x.drop s).take kw.length ≠ canon ∧
      capsOut kw canon hasV2 x = x.take s ++ canon ++ x.drop (s + kw.length) := by
  cases hf : capsFindPos kw hasV2 true x with
  | none =>
    left
    unfold capsOut
    rw [capsApply_unfired_none _ _ _ _ hf]
  | some p =>
    have hs := capsFindPos_some kw hasV2 x true p hf
    cases ht : capsTry kw hasV2 (x.drop p) with
    | none => rw [ht] at hs; simp at hs
    | some r =>
      by_cases hm : (x.drop (p + r)).take kw.length = canon
      · left
        unfold capsOut
        rw [capsApply_unfired_canon _ _ _ _ _ _ hf ht hm]
      · right
        obtain ⟨hocc, hle⟩ := capsFired_occ kw hasV2 x p r hkw ht
        refine ⟨p + r, hocc, hle, hm, ?_⟩
        unfold capsOut
        rw [capsApply_fired _ _ _ _ _ _ hf ht hm]

/-- A capitalization rule only changes letter case: the lower image of
the text is preserved. -/
theorem capsOut_lowL (kw canon : List Char) (hasV2 : Bool)
    (hlowc : lowL canon = kw) (hkw : kw ≠ []) (x : List Char) :
    lowL (capsOut kw canon hasV2 x) = lowL x := by
  rcases capsOut_cases kw canon hasV2 hkw x with h | ⟨s, hocc, hle, hm, hout⟩
  · rw [h]
  · rw [hout]
    have hx : lowL x = (lowL x).take s ++ kw ++ (lowL x).drop (s + kw.length) := by
      conv_lhs => rw [slice_decomp (lowL x) s kw.length]
      rw [hocc]
    calc lowL (x.take s ++ canon ++ x.drop (s + kw.length))
        = (lowL x).take s ++ lowL canon ++ (lowL x).drop (s + kw.length) := by
          simp [lowL, List.map_take, List.map_drop]
      _ = (lowL x).take s ++ kw ++ (lowL x).drop (s + kw.length) := by rw [hlowc]
      _ = lowL x := hx.symm

/-- Each capitalization rule is idempotent: after a rewrite the first
match carries the canonical spelling, so a second run changes nothing. -/
theorem capsOut_idem (kw canon : List Char) (hasV2 : Bool)
    (hlowc : lowL canon = kw) (hlen : canon.length = kw.length) (hkw : kw ≠ [])
    (x : List Char) :
    capsOut kw canon hasV2 (capsOut kw canon hasV2 x) = capsOut kw canon hasV2 x := by
  cases hf : capsFindPos kw hasV2 true x with
  | none =>
    have h1 : capsOut kw canon hasV2 x = x := by
      unfold capsOut
      rw [capsApply_unfired_none _ _ _ _ hf]
    rw [h1]
    exact h1
  | some p =>
    have hs := capsFindPos_some kw hasV2 x true p hf
    cases ht : capsTry kw hasV2 (x.drop p) with
    | none => rw [ht] at hs; simp at hs
    | some r =>
      by_cases hm : (x.drop (p + r)).take kw.length = canon
      · have h1 : capsOut kw canon hasV2 x = x := by
          unfold capsOut
          rw [capsApply_unfired_canon _ _ _ _ _ _ hf ht hm]
        rw [h1]
        exact h1
      · obtain ⟨hocc, hle⟩ := capsFired_occ kw hasV2 x p r hkw ht
        have hout : capsOut kw canon hasV2 x =
            x.take (p + r) ++ canon ++ x.drop ((p + r) + kw.length) := by
          unfold capsOut
          rw [capsApply_fired _ _ _ _ _ _ hf ht hm]
        have hlowxy : lowL (capsOut kw canon hasV2 x) = lowL x :=
          capsOut_lowL kw canon hasV2 hlowc hkw x
        have hfy : capsFindPos kw hasV2 true (capsOut kw canon hasV2 x) = some p := by
          rw [capsFindPos_congr kw hasV2 _ x true hlowxy, hf]
        have hty : capsTry kw hasV2 ((capsOut kw canon hasV2 x).drop p) = some r := by
          have hld : lowL ((capsOut kw canon hasV2 x).drop p) = lowL (x.drop p) := by
            unfold lowL
            rw [List.map_drop, List.map_drop]
            exact congrArg (List.drop p) hlowxy
          unfold capsTry
          rw [hld]
          exact ht
        have hslice : ((capsOut kw canon hasV2 x).drop (p + r)).take kw.length = canon := by
          have htl : (x.take (p + r)).length = p + r := by
            rw [List.length_take]
            omega
          have h1 : (capsOut kw canon hasV2 x).drop (p + r) =
              canon ++ x.drop ((p + r) + kw.length) := by
            rw [hout, List.append_assoc, List.drop_left' htl]
          rw [h1, List.take_left' hlen]
        have hrfl : capsOut kw canon hasV2 (capsOut kw canon hasV2 x) =
            (capsApply kw canon hasV2 (capsOut kw canon hasV2 x)).1 := rfl
        rw [hrfl, capsApply_unfired_canon _ _ _ _ _ _ hfy hty hslice]

/-! ### Structure of the merge rules -/

theorem takeWhile_self_append (p : Char → Bool) (l : List Char) :
    l = l.takeWhile p ++ l.drop (l.takeWhile p).length := by
  induction l with
  | nil => rfl
  | cons c cs ih =>
    by_cases h : p c
    · rw [List.takeWhile_cons, if_pos h]
      simp only [List.length_cons, List.drop_succ_cons, List.cons_append]
      exact congrArg (c :: ·) ih
    · rw [List.takeWhile_cons, if_neg h]
      simp

theorem prefix_self_append {k r : List Char} (h : k.isPrefixOf r = true) :
    r = k ++ r.drop k.length := by
  have hp : k <+: r := List.isPrefixOf_iff_prefix.mp h
  have hk : k = r.take k.length := List.prefix_iff_eq_take.mp hp
  calc r = r.take k.length ++ r.drop k.length := (List.take_append_drop _ _).symm
    _ = k ++ r.drop k.length := by rw [← hk]

theorem isJsWs_of_isTabSpace {c : Char} (h : isTabSpace c = true) :
    isJsWs c = true := by
  simp only [isTabSpace, Bool.or_eq_true, beq_iff_eq] at h
  simp only [isJsWs, Bool.or_eq_true, beq_iff_eq]
  omega

theorem jsTrim_length_le (l : List Char) : (jsTrim l).length ≤ l.length := by
  unfold jsTrim
  calc ((l.dropWhile isJsWs).reverse.dropWhile isJsWs).reverse.length
      = ((l.dropWhile isJsWs).reverse.dropWhile isJsWs).length := List.length_reverse _
    _ ≤ (l.dropWhile isJsWs).reverse.length := (List.dropWhile_suffix _).length_le
    _ = (l.dropWhile isJsWs).length := List.length_reverse _
    _ ≤ l.length := (List.dropWhile_suffix _).length_le

theorem jsTrim_cons_ws_length {c : Char} (hc : isJsWs c = true) (t : List Char) :
    (jsTrim (c :: t)).length ≤ t.length := by
  unfold jsTrim
  rw [List.dropWhile_cons, if_pos hc]
  calc ((t.dropWhile isJsWs).reverse.dropWhile isJsWs).reverse.length
      = ((t.dropWhile isJsWs).reverse.dropWhile isJsWs).length := List.length_reverse _
    _ ≤ (t.dropWhile isJsWs).reverse.length := (List.dropWhile_suffix _).length_le
    _ = (t.dropWhile isJsWs).length := List.length_reverse _
    _ ≤ t.length := (List.dropWhile_suffix _).length_le

theorem commitLineAt_split (am : Bool) (l g1 r1 : List Char)
    (h : commitLineAt am l = some (g1, r1)) : l = g1 ++ r1 := by
  unfold commitLineAt at h
  set ind := l.takeWhile isTabSpace with hind
  set r0 := l.drop ind.length with hr0
  have hl0 : l = ind ++ r0 := takeWhile_self_append isTabSpace l
  by_cases h1 : "commit".data.isPrefixOf r0 = true
  · simp only [h1, if_true] at h
    set r2 := r0.drop "commit".data.length with hr2
    set sp := r2.takeWhile isTabSpace with hsp
    by_cases h2 : sp.isEmpty = true
    · simp [h2] at h
    · simp only [Bool.not_eq_true] at h2
      simp only [h2, Bool.false_eq_true, if_false] at h
      simp only [Option.some.injEq, Prod.mk.injEq] at h
      obtain ⟨hg1, hr1⟩ := h
      rw [hl0, prefix_self_append h1, ← hr2,
        takeWhile_self_append isTabSpace r2, ← hsp,
        takeWhile_self_append isDotChar (r2.drop sp.length)]
      rw [← hg1, ← hr1]
      simp
  · simp only [h1, Bool.false_eq_true, if_false] at h
    by_cases h1b : (am && "merge".data.isPrefixOf r0) = true
    · simp only [h1b, if_true] at h
      have h1m : "merge".data.isPrefixOf r0 = true := ((Bool.and_eq_true _ _).mp h1b).2
      set r2 := r0.drop "merge".data.length with hr2
      set sp := r2.takeWhile isTabSpace with hsp
      by_cases h2 : sp.isEmpty = true
      · simp [h2] at h
      · simp only [Bool.not_eq_true] at h2
        simp only [h2, Bool.false_eq_true, if_false] at h
        simp only [Option.some.injEq, Prod.mk.injEq] at h
        obtain ⟨hg1, hr1⟩ := h
        rw [hl0, prefix_self_append h1m, ← hr2,
          takeWhile_self_append isTabSpace r2, ← hsp,
          takeWhile_self_append isDotChar (r2.drop sp.length)]
        rw [← hg1, ← hr1]
        simp
    · simp [h1b] at h

theorem tagClauseAt_split (l g2 rest : List Char)
    (h : tagClauseAt l = some (g2, rest)) :
    l = g2 ++ rest ∧ ∃ c t, g2 = c :: t ∧ isTabSpace c = true := by
  unfold tagClauseAt at h
  set w1 := l.takeWhile isTabSpace with hw1
  by_cases h1 : w1.isEmpty = true
  · simp [h1] at h
  · simp only [Bool.not_eq_true] at h1
    simp only [h1, Bool.false_eq_true, if_false] at h
    set r1 := l.drop w1.length with hr1
    by_cases h2 : "tag:".data.isPrefixOf r1 = true
    · simp only [h2, if_true] at h
      set r2 := r1.drop 4 with hr2
      set w2 := r2.takeWhile isTabSpace with hw2
      by_cases h3 : w2.isEmpty = true
      · simp [h3] at h
      · simp only [Bool.not_eq_true] at h3
        simp only [h3, Bool.false_eq_true, if_false] at h
        set r3 := r2.drop w2.length with hr3
        cases hm : r3 with
        | nil => rw [hm] at h; simp at h
        | cons c r4 =>
          rw [hm] at h
          simp only at h
          by_cases hq : (c == '"') = true
          · rw [if_pos hq] at h
            set v := r4.takeWhile (fun ch => !(ch == '"')) with hv
            cases hm2 : r4.drop v.length with
            | nil => rw [hm2] at h; simp at h
            | cons d r5 =>
              rw [hm2] at h
              simp only at h
              by_cases hq2 : (d == '"') = true
              · rw [if_pos hq2] at h
                simp only [Option.some.injEq, Prod.mk.injEq] at h
                obtain ⟨hg2, hrest⟩ := h
                constructor
                · have hl : l = w1 ++ r1 := takeWhile_self_append isTabSpace l
                  have hr1e : r1 = "tag:".data ++ r2 := by
                    rw [hr2]
                    exact prefix_self_append h2
                  have hr2e : r2 = w2 ++ r3 := by
                    rw [hr3]
                    exact takeWhile_self_append isTabSpace r2
                  have hr4e : r4 = v ++ d :: r5 := by
                    rw [← hm2, hv]
                    exact takeWhile_self_append _ r4
                  rw [hl, hr1e, hr2e, hm, hr4e, ← hg2, ← hrest]
                  simp
                · cases hww : w1 with
                  | nil => rw [hww] at h1; simp at h1
                  | cons cw tw =>
                    refine ⟨cw, tw ++ "tag:".data ++ w2 ++ c :: v ++ [d], ?_, ?_⟩
                    · rw [← hg2, hww]
                      simp
                    · have hcwmem : cw ∈ w1 := by
                        rw [hww]
                        exact List.mem_cons_self _ _
                      exact List.mem_takeWhile_imp (hw1 ▸ hcwmem)
              · rw [if_neg hq2] at h
                simp at h
          · rw [if_neg hq] at h
            simp at h
    · simp [h2] at h

theorem typeClauseAt_split (l g2 rest : List Char)
    (h : typeClauseAt l = some (g2, rest)) :
    l = g2 ++ rest ∧ ∃ c t, g2 = c :: t ∧ isTabSpace c = true := by
  unfold typeClauseAt at h
  set w1 := l.takeWhile isTabSpace with hw1
  by_cases h1 : w1.isEmpty = true
  · simp [h1] at h
  · simp only [Bool.not_eq_true] at h1
    simp only [h1, Bool.false_eq_true, if_false] at h
    set r1 := l.drop w1.length with hr1
    by_cases h2 : "type:".data.isPrefixOf r1 = true
    · simp only [h2, if_true] at h
      set r2 := r1.drop 5 with hr2
      set w2 := r2.takeWhile isTabSpace with hw2
      by_cases h3 : w2.isEmpty = true
      · simp [h3] at h
      · simp only [Bool.not_eq_true] at h3
        simp only [h3, Bool.false_eq_true, if_false] at h
        set r3 := r2.drop w2.length with hr3
        set v := r3.takeWhile isWordChar with hv
        by_cases h4 : v.isEmpty = true
        · simp [h4] at h
        · simp only [Bool.not_eq_true] at h4
          simp only [h4, Bool.false_eq_true, if_false] at h
          simp only [Option.some.injEq, Prod.mk.injEq] at h
          obtain ⟨hg2, hrest⟩ := h
          constructor
          · have hl : l = w1 ++ r1 := takeWhile_self_append isTabSpace l
            have hr1e : r1 = "type:".data ++ r2 := by
              rw [hr2]
              exact prefix_self_append h2
            have hr2e : r2 = w2 ++ r3 := by
              rw [hr3]
              exact takeWhile_self_append isTabSpace r2
            have hr3e : r3 = v ++ r3.drop v.length := by
              rw [hv]
              exact takeWhile_self_append _ r3
            rw [hl, hr1e, hr2e, hr3e, ← hg2, ← hrest]
            simp
          · cases hww : w1 with
            | nil => rw [hww] at h1; simp at h1
            | cons cw tw =>
              refine ⟨cw, tw ++ "type:".data ++ w2 ++ v, ?_, ?_⟩
              · rw [← hg2, hww]
                simp
              · have hcwmem : cw ∈ w1 := by
                  rw [hww]
                  exact List.mem_cons_self _ _
                exact List.mem_takeWhile_imp (hw1 ▸ hcwmem)
    · simp [h2] at h

theorem mergeTryAt_split (am : Bool) (cl : List Char → Option (List Char × List Char))
    (hcl : ∀ l g2 rest, cl l = some (g2, rest) →
      l = g2 ++ rest ∧ ∃ c t, g2 = c :: t ∧ isTabSpace c = true)
    (l g1 g2 rest : List Char)
    (h : mergeTryAt am cl l = some (g1, g2, rest)) :
    ∃ nls, l = g1 ++ nls ++ g2 ++ rest ∧ nls ≠ [] ∧
      ∃ c t, g2 = c :: t ∧ isTabSpace c = true := by
  unfold mergeTryAt at h
  cases hc : commitLineAt am l with
  | none => rw [hc] at h; simp at h
  | some pr =>
    obtain ⟨gg1, r1⟩ := pr
    rw [hc] at h
    simp only at h
    set nls := r1.takeWhile isCrLf with hnls
    by_cases h2 : nls.isEmpty = true
    · simp [h2] at h
    · simp only [Bool.not_eq_true] at h2
      simp only [h2, Bool.false_eq_true, if_false] at h
      cases hcl2 : cl (r1.drop nls.length) with
      | none => rw [hcl2] at h; simp at h
      | some pq =>
        obtain ⟨gg2, rr⟩ := pq
        rw [hcl2] at h
        simp only [Option.some.injEq, Prod.mk.injEq] at h
        obtain ⟨rfl, rfl, rfl⟩ := h
        obtain ⟨hsplit, hhead⟩ := hcl _ _ _ hcl2
        refine ⟨nls, ?_, ?_, hhead⟩
        · have hl1 : l = gg1 ++ r1 := commitLineAt_split am l gg1 r1 hc
          have hr1 : r1 = nls ++ r1.drop nls.length := by
            rw [hnls]
            exact takeWhile_self_append isCrLf r1
          rw [hl1]
          conv_lhs => rw [hr1, hsplit]
          simp
        · intro hh
          rw [hh] at h2
          simp at h2

theorem tagTryAt_split (l g1 g2 rest : List Char)
    (h : tagTryAt l = some (g1, g2, rest)) :
    ∃ nls, l = g1 ++ nls ++ g2 ++ rest ∧ nls ≠ [] ∧
      ∃ c t, g2 = c :: t ∧ isTabSpace c = true :=
  mergeTryAt_split true tagClauseAt tagClauseAt_split l g1 g2 rest h

theorem typeTryAt_split (l g1 g2 rest : List Char)
    (h : typeTryAt l = some (g1, g2, rest)) :
    ∃ nls, l = g1 ++ nls ++ g2 ++ rest ∧ nls ≠ [] ∧
      ∃ c t, g2 = c :: t ∧ isTabSpace c = true :=
  mergeTryAt_split false typeClauseAt typeClauseAt_split l g1 g2 rest h

theorem merge_emit_le {g1 nls g2 rest : List Char} (hnl : nls ≠ [])
    (hg2 : ∃ c t, g2 = c :: t ∧ isTabSpace c = true) :
    (g1 ++ ' ' :: jsTrim g2).length + rest.length + 1 ≤
      (g1 ++ nls ++ g2 ++ rest).length := by
  obtain ⟨c, t, rfl, hc⟩ := hg2
  have htr := jsTrim_cons_ws_length (isJsWs_of_isTabSpace hc) t
  have hnlp : 0 < nls.length := List.length_pos.mpr hnl
  simp only [List.length_append, List.length_cons]
  omega

/-- One pass shrinks the text by at least its match count. -/
theorem mergePassF_len (tryA : List Char → Option (List Char × List Char × List Char))
    (htryA : ∀ l g1 g2 rest, tryA l = some (g1, g2, rest) →
      ∃ nls, l = g1 ++ nls ++ g2 ++ rest ∧ nls ≠ [] ∧
        ∃ c t, g2 = c :: t ∧ isTabSpace c = true) :
    ∀ (fuel : Nat) (st : Bool) (l : List Char),
      (mergePassF tryA fuel st l).1.length + (mergePassF tryA fuel st l).2 ≤ l.length := by
  intro fuel
  induction fuel with
  | zero => intro st l; simp [mergePassF]
  | succ fuel ih =>
    intro st l
    match l with
    | [] => simp [mergePassF]
    | c :: cs =>
      simp only [mergePassF]
      cases htr : (if st then tryA (c :: cs) else none) with
      | none =>
        have hcs := ih (isLineTermJs c) cs
        simp only [List.length_cons]
        omega
      | some g =>
        obtain ⟨g1, g2, rest⟩ := g
        have htr' : tryA (c :: cs) = some (g1, g2, rest) := by
          by_cases hst : st = true
          · rwa [if_pos hst] at htr
          · rw [if_neg hst] at htr
            exact absurd htr (by simp)
        obtain ⟨nls, hsplit, hnl, hg2⟩ := htryA _ _ _ _ htr'
        have hemit := @merge_emit_le g1 nls g2 rest hnl hg2
        have hrest := ih false rest
        have hlen : (c :: cs).length = (g1 ++ nls ++ g2 ++ rest).length :=
          congrArg List.length hsplit
        simp only [List.length_append, List.length_cons] at hemit hlen ⊢
        omega

theorem merge_rest_lt {l g1 nls g2 rest : List Char}
    (hsplit : l = g1 ++ nls ++ g2 ++ rest) (hnl : nls ≠ []) :
    rest.length < l.length := by
  have hnlp : 0 < nls.length := List.length_pos.mpr hnl
  rw [hsplit]
  simp only [List.length_append]
  omega

/-- The pass is independent of the fuel, as long as there is enough. -/
theorem mergePassF_fuel (tryA : List Char → Option (List Char × List Char × List Char))
    (htryA : ∀ l g1 g2 rest, tryA l = some (g1, g2, rest) →
      ∃ nls, l = g1 ++ nls ++ g2 ++ rest ∧ nls ≠ [] ∧
        ∃ c t, g2 = c :: t ∧ isTabSpace c = true) :
    ∀ (f₁ f₂ : Nat) (st : Bool) (l : List Char), l.length ≤ f₁ → l.length ≤ f₂ →
      mergePassF tryA f₁ st l = mergePassF tryA f₂ st l := by
  intro f₁
  induction f₁ with
  | zero =>
    intro f₂ st l h1 h2
    have hl : l = [] := List.length_eq_zero.mp (Nat.le_zero.mp h1)
    subst hl
    cases f₂ <;> simp [mergePassF]
  | succ f₁ ih =>
    intro f₂ st l h1 h2
    match l with
    | [] => cases f₂ <;> simp [mergePassF]
    | c :: cs =>
      match f₂ with
      | 0 => simp at h2
      | f₂ + 1 =>
        simp only [mergePassF]
        cases htr : (if st then tryA (c :: cs) else none) with
        | none =>
          have hcs1 : cs.length ≤ f₁ := by
            have := h1
            simp only [List.length_cons] at this
            omega
          have hcs2 : cs.length ≤ f₂ := by
            have := h2
            simp only [List.length_cons] at this
            omega
          simp only [ih f₂ (isLineTermJs c) cs hcs1 hcs2]
        | some g =>
          obtain ⟨g1, g2, rest⟩ := g
          have htr' : tryA (c :: cs) = some (g1, g2, rest) := by
            by_cases hst : st = true
            · rwa [if_pos hst] at htr
            · rw [if_neg hst] at htr
              exact absurd htr (by simp)
          obtain ⟨nls, hsplit, hnl, _⟩ := htryA _ _ _ _ htr'
          have hlt := merge_rest_lt hsplit hnl
          have hr1 : rest.length ≤ f₁ := by omega
          have hr2 : rest.length ≤ f₂ := by omega
          simp only [ih f₂ false rest hr1 hr2]

/-- A pass that found nothing changed nothing. -/
theorem mergePassF_zero (tryA : List Char → Option (List Char × List Char × List Char)) :
    ∀ (fuel : Nat) (st : Bool) (l : List Char),
      (mergePassF tryA fuel st l).2 = 0 → (mergePassF tryA fuel st l).1 = l := by
  intro fuel
  induction fuel with
  | zero => intro st l _; rfl
  | succ fuel ih =>
    intro st l h
    match l with
    | [] => rfl
    | c :: cs =>
      simp only [mergePassF] at h ⊢
      cases htr : (if st then tryA (c :: cs) else none) with
      | none =>
        rw [htr] at h
        simp only at h ⊢
        rw [ih (isLineTermJs c) cs h]
      | some g =>
        obtain ⟨g1, g2, rest⟩ := g
        rw [htr] at h
        simp at h

/-- After the merge loop, a further pass finds no match. -/
theorem mergeLoopF_fix (tryA : List Char → Option (List Char × List Char × List Char))
    (htryA : ∀ l g1 g2 rest, tryA l = some (g1, g2, rest) →
      ∃ nls, l = g1 ++ nls ++ g2 ++ rest ∧ nls ≠ [] ∧
        ∃ c t, g2 = c :: t ∧ isTabSpace c = true) :
    ∀ (fuel : Nat) (l : List Char), l.length < fuel →
      (mergePassF tryA ((mergeLoopF tryA fuel l).1).length true
        ((mergeLoopF tryA fuel l).1)).2 = 0 := by
  intro fuel
  induction fuel with
  | zero => intro l h; omega
  | succ fuel ih =>
    intro l h
    simp only [mergeLoopF]
    by_cases hz : (mergePassF tryA l.length true l).2 = 0
    · rw [if_pos hz]
      exact hz
    · rw [if_neg hz]
      have hlen := mergePassF_len tryA htryA l.length true l
      have hlt : ((mergePassF tryA l.length true l).1).length < fuel := by omega
      exact ih _ hlt

theorem bomStrip_filter (m : List Char) :
    bomStrip (m.filter (fun c => !(isZeroWidth c))) =
      m.filter (fun c => !(isZeroWidth c)) := by
  cases hm : m.filter (fun c => !(isZeroWidth c)) with
  | nil => rfl
  | cons c t =>
    have hc : c ∈ m.filter (fun c => !(isZeroWidth c)) := by
      rw [hm]
      exact List.mem_cons_self _ _
    have hzw := List.of_mem_filter hc
    have hz : isZeroWidth c = false := by
      cases hzz : isZeroWidth c
      · rfl
      · rw [hzz] at hzw
        simp at hzw
    have hne : (c.toNat == 0xFEFF) = false := by
      simp only [isZeroWidth, Bool.or_eq_false_iff, beq_eq_false_iff_ne, ne_eq] at hz
      simp only [beq_eq_false_iff_ne, ne_eq]
      exact hz.2
    unfold bomStrip
    simp [hne]

/-- Rule 1 (strip invisible characters) is idempotent. -/
theorem stripInvisible_idem (l : List Char) :
    stripInvisible (stripInvisible l) = stripInvisible l := by
  unfold stripInvisible
  rw [bomStrip_filter, List.filter_filter]
  have hfe : (fun (c : Char) => (!(isZeroWidth c)) && (!(isZeroWidth c))) =
      fun c => !(isZeroWidth c) := funext fun c => Bool.and_self _
  rw [hfe]

/-- The tag-merge loop is idempotent: it runs to a fixpoint of its own
pattern. -/
theorem tagLoop_text_idem (x : List Char) : (tagLoop (tagLoop x).1).1 = (tagLoop x).1 := by
  have hfix := mergeLoopF_fix tagTryAt tagTryAt_split (x.length + 1) x (by omega)
  unfold tagLoop at *
  set y := (mergeLoopF tagTryAt (x.length + 1) x).1 with hy
  simp only [mergeLoopF]
  rw [if_pos hfix]

/-- The type-merge loop is idempotent. -/
theorem typeLoop_text_idem (x : List Char) :
    (typeLoop (typeLoop x).1).1 = (typeLoop x).1 := by
  have hfix := mergeLoopF_fix typeTryAt typeTryAt_split (x.length + 1) x (by omega)
  unfold typeLoop at *
  set y := (mergeLoopF typeTryAt (x.length + 1) x).1 with hy
  simp only [mergeLoopF]
  rw [if_pos hfix]

/-- **C2 (amended)**: `fixOne` as a whole is not idempotent (the
type-merge rule can expose a new tag-merge, see the counterexample), but
each of its rewrite stages individually is: stripping invisible
characters, each of the five keyword-capitalization rules, the tag-merge
loop, and the type-merge loop. -/
theorem C2_stages_idem (x : List Char) :
    stripInvisible (stripInvisible x) = stripInvisible x ∧
    capsOut "gitgraph".data "gitGraph".data false
      (capsOut "gitgraph".data "gitGraph".data false x) =
      capsOut "gitgraph".data "gitGraph".data false x ∧
    capsOut "sequencediagram".data "sequenceDiagram".data false
      (capsOut "sequencediagram".data "sequenceDiagram".data false x) =
      capsOut "sequencediagram".data "sequenceDiagram".data false x ∧
    capsOut "classdiagram".data "classDiagram".data false
      (capsOut "classdiagram".data "classDiagram".data false x) =
      capsOut "classdiagram".data "classDiagram".data false x ∧
    capsOut "statediagram".data "stateDiagram".data true
      (capsOut "statediagram".data "stateDiagram".data true x) =
      capsOut "statediagram".data "stateDiagram".data true x ∧
    capsOut "erdiagram".data "erDiagram".data false
      (capsOut "erdiagram".data "erDiagram".data false x) =
      capsOut "erdiagram".data "erDiagram".data false x ∧
    (tagLoop (tagLoop x).1).1 = (tagLoop x).1 ∧
    (typeLoop (typeLoop x).1).1 = (typeLoop x).1 :=
  ⟨stripInvisible_idem x,
    capsOut_idem _ _ _ (by decide) (by decide) (by decide) x,
    capsOut_idem _ _ _ (by decide) (by decide) (by decide) x,
    capsOut_idem _ _ _ (by decide) (by decide) (by decide) x,
    capsOut_idem _ _ _ (by decide) (by decide) (by decide) x,
    capsOut_idem _ _ _ (by decide) (by decide) (by decide) x,
    tagLoop_text_idem x, typeLoop_text_idem x⟩

/-- The position found by the capitalization scanner is a line-start
position, carries a match, and is the first such position. -/
theorem capsFindPos_first (kw : List Char) (hasV2 : Bool) :
    ∀ (x : List Char) (st : Bool) (p : Nat),
      capsFindPos kw hasV2 st x = some p →
      okAtLineStart st x p ∧ (capsTry kw hasV2 (x.drop p)).isSome = true ∧
      ∀ q, q < p → okAtLineStart st x q → capsTry kw hasV2 (x.drop q) = none := by
  intro x
  induction x with
  | nil =>
    intro st p h
    simp only [capsFindPos] at h
    by_cases hc : (st && (capsTry kw hasV2 ([] : List Char)).isSome) = true
    · rw [if_pos hc] at h
      cases h
      obtain ⟨h1, h2⟩ := (Bool.and_eq_true _ _).mp hc
      exact ⟨by simp [okAtLineStart, h1], h2, fun q hq _ => by omega⟩
    · rw [if_neg hc] at h
      cases h
  | cons c cs ih =>
    intro st p h
    simp only [capsFindPos] at h
    by_cases hc : (st && (capsTry kw hasV2 (c :: cs)).isSome) = true
    · rw [if_pos hc] at h
      cases h
      obtain ⟨h1, h2⟩ := (Bool.and_eq_true _ _).mp hc
      exact ⟨by simp [okAtLineStart, h1], h2, fun q hq _ => by omega⟩
    · rw [if_neg hc] at h
      obtain ⟨q0, hq0, hpq⟩ := Option.map_eq_some'.mp h
      subst hpq
      obtain ⟨hok, hsome, hmin⟩ := ih (isLineTermJs c) q0 hq0
      refine ⟨?_, ?_, ?_⟩
      · unfold okAtLineStart at hok ⊢
        by_cases hq00 : q0 = 0
        · subst hq00
          simp only [if_pos rfl] at hok
          simp only [Nat.add_sub_cancel]
          rw [if_neg (by omega)]
          exact ⟨c, by simp, hok⟩
        · rw [if_neg hq00] at hok
          rw [if_neg (by omega)]
          obtain ⟨d, hd1, hd2⟩ := hok
          refine ⟨d, ?_, hd2⟩
          have : q0 + 1 - 1 = (q0 - 1) + 1 := by omega
          rw [this, List.getElem?_cons_succ]
          exact hd1
      · rw [List.drop_succ_cons]
        exact hsome
      · intro q hq hokq
        match q with
        | 0 =>
          unfold okAtLineStart at hokq
          simp only [if_pos rfl] at hokq
          have hns : ¬ ((capsTry kw hasV2 (c :: cs)).isSome = true) := by
            intro hh
            exact hc (by rw [hokq, hh]; rfl)
          rw [List.drop_zero]
          cases hcc : capsTry kw hasV2 (c :: cs)
          · rfl
          · exact absurd (by rw [hcc]; rfl) hns
        | q' + 1 =>
          rw [List.drop_succ_cons]
          apply hmin q' (by omega)
          unfold okAtLineStart at hokq ⊢
          by_cases hq'0 : q' = 0
          · subst hq'0
            simp only [if_pos rfl]
            rw [if_neg (by omega)] at hokq
            obtain ⟨d, hd1, hd2⟩ := hokq
            simp only [Nat.add_sub_cancel] at hd1
            simp only [List.getElem?_cons_zero, Option.some.injEq] at hd1
            rw [← hd1] at hd2
            exact hd2
          · rw [if_neg hq'0]
            rw [if_neg (by omega)] at hokq
            obtain ⟨d, hd1, hd2⟩ := hokq
            refine ⟨d, ?_, hd2⟩
            have : q' + 1 - 1 = (q' - 1) + 1 := by omega
            rw [this, List.getElem?_cons_succ] at hd1
            exact hd1

/-- **C6 (amended)**: a capitalization rule matches case-insensitively,
anchored at the start of any line (the regex has the `m` flag, so not
only the first line); at most one occurrence — the first line-start
anchored match in the text — is rewritten, and only its keyword
characters are replaced by the canonical spelling. -/
theorem C6_caps_first_match (kw canon : List Char) (hasV2 : Bool) (hkw : kw ≠ [])
    (x : List Char) :
    capsOut kw canon hasV2 x = x ∨
    ∃ p r, capsFindPos kw hasV2 true x = some p ∧
      okAtLineStart true x p ∧
      (∀ q, q < p → okAtLineStart true x q → capsTry kw hasV2 (x.drop q) = none) ∧
      capsTry kw hasV2 (x.drop p) = some r ∧
      ((lowL x).drop (p + r)).take kw.length = kw ∧
      capsOut kw canon hasV2 x =
        x.take (p + r) ++ canon ++ x.drop ((p + r) + kw.length) := by
  cases hf : capsFindPos kw hasV2 true x with
  | none =>
    left
    unfold capsOut
    rw [capsApply_unfired_none _ _ _ _ hf]
  | some p =>
    obtain ⟨hok, hsome, hmin⟩ := capsFindPos_first kw hasV2 x true p hf
    cases ht : capsTry kw hasV2 (x.drop p) with
    | none => rw [ht] at hsome; simp at hsome
    | some r =>
      by_cases hm : (x.drop (p + r)).take kw.length = canon
      · left
        unfold capsOut
        rw [capsApply_unfired_canon _ _ _ _ _ _ hf ht hm]
      · right
        obtain ⟨hocc, _⟩ := capsFired_occ kw hasV2 x p r hkw ht
        refine ⟨p, r, rfl, hok, hmin, ht, hocc, ?_⟩
        unfold capsOut
        rw [capsApply_fired _ _ _ _ _ _ hf ht hm]

/-- Witness for C6 (amended) at the gitGraph rule on `"x\ngitgraph"`. -/
theorem C6_caps_first_match_witness :
    ("gitgraph".data ≠ []) ∧
    (capsOut "gitgraph".data "gitGraph".data false "x\ngitgraph".data = "x\ngitgraph".data ∨
    ∃ p r, capsFindPos "gitgraph".data false true "x\ngitgraph".data = some p ∧
      okAtLineStart true "x\ngitgraph".data p ∧
      (∀ q, q < p → okAtLineStart true "x\ngitgraph".data q →
        capsTry "gitgraph".data false ("x\ngitgraph".data.drop q) = none) ∧
      capsTry "gitgraph".data false ("x\ngitgraph".data.drop p) = some r ∧
      ((lowL "x\ngitgraph".data).drop (p + r)).take "gitgraph".data.length =
        "gitgraph".data ∧
      capsOut "gitgraph".data "gitGraph".data false "x\ngitgraph".data =
        "x\ngitgraph".data.take (p + r) ++ "gitGraph".data ++
          "x\ngitgraph".data.drop ((p + r) + "gitgraph".data.length)) :=
  ⟨by decide, C6_caps_first_match "gitgraph".data "gitGraph".data false (by decide)
    "x\ngitgraph".data⟩

theorem capsStep_fst (kw canon : List Char) (hasV2 : Bool) (nm : String)
    (st : List Char × List String) :
    (capsStep kw canon hasV2 nm st).1 = capsOut kw canon hasV2 st.1 := by
  unfold capsStep capsOut
  cases h : capsApply kw canon hasV2 st.1 with
  | mk code rep =>
    cases rep <;> simp

theorem capsStagesAll_fst (st : List Char × List String) :
    (capsStagesAll st).1 = capsAllOut st.1 := by
  unfold capsStagesAll capsAllOut
  simp only [capsStep_fst]

/-- The whole merge loop shrinks the text by at least its total count. -/
theorem mergeLoopF_len (tryA : List Char → Option (List Char × List Char × List Char))
    (htryA : ∀ l g1 g2 rest, tryA l = some (g1, g2, rest) →
      ∃ nls, l = g1 ++ nls ++ g2 ++ rest ∧ nls ≠ [] ∧
        ∃ c t, g2 = c :: t ∧ isTabSpace c = true) :
    ∀ (fuel : Nat) (l : List Char),
      (mergeLoopF tryA fuel l).1.length + (mergeLoopF tryA fuel l).2 ≤ l.length := by
  intro fuel
  induction fuel with
  | zero => intro l; simp [mergeLoopF]
  | succ fuel ih =>
    intro l
    simp only [mergeLoopF]
    by_cases hz : (mergePassF tryA l.length true l).2 = 0
    · rw [if_pos hz]
      simp
    · rw [if_neg hz]
      have hpass := mergePassF_len tryA htryA l.length true l
      have hrec := ih (mergePassF tryA l.length true l).1
      simp only
      omega

/-- **C5 (amended)**: the tag-merge stage merges a `tag: "…"` clause on a
line starting with at least one space or tab, following (possibly across
several newlines) a line that begins with optional indentation,
`commit`/`merge`, whitespace and content — repeated until no such match
remains at the end of the stage; a zero merge count means the stage left
the text unchanged, each counted merge shrank the text, and `fixOne`
reports all the stage's merges as at most one aggregated message
carrying the total count. -/
theorem C5_tag_stage (x : List Char) :
    (tagPass (tagLoop x).1).2 = 0 ∧
    ((tagLoop x).2 = 0 → (tagLoop x).1 = x) ∧
    (tagLoop x).1.length + (tagLoop x).2 ≤ x.length ∧
    (fixMermaidCode x).fixes =
      ((capsStagesAll (stripInvisible x,
          if (stripInvisible x).length ≠ x.length then
            ["Removed invisible characters (BOM/zero-width)"] else [])).2 ++
        (if (tagLoop (capsAllOut (stripInvisible x))).2 > 0 then
          [tagMsg (tagLoop (capsAllOut (stripInvisible x))).2] else [])) ++
      (if (typeLoop (tagLoop (capsAllOut (stripInvisible x))).1).2 > 0 then
        [typeMsg (typeLoop (tagLoop (capsAllOut (stripInvisible x))).1).2] else []) := by
  refine ⟨?_, ?_, ?_, ?_⟩
  · exact mergeLoopF_fix tagTryAt tagTryAt_split (x.length + 1) x (by omega)
  · intro hz
    unfold tagLoop at hz ⊢
    simp only [mergeLoopF] at hz ⊢
    by_cases h0 : (mergePassF tagTryAt x.length true x).2 = 0
    · rw [if_pos h0]
    · rw [if_neg h0] at hz
      simp only at hz
      omega
  · exact mergeLoopF_len tagTryAt tagTryAt_split (x.length + 1) x
  · simp only [fixMermaidCode, capsStagesAll_fst]

/-! ### Segmentation of the document fixer -/

theorem fenceOpenAt_split (l op rest : List Char) (h : fenceOpenAt l = some (op, rest)) :
    l = op ++ rest ∧ 10 ≤ op.length := by
  unfold fenceOpenAt at h
  by_cases h1 : ciAt fenceTag l = true
  · rw [if_pos h1] at h
    set run := (l.drop 10).takeWhile isJsWs with hrun
    set k := run.length - (run.reverse.takeWhile (fun c => !(c == '\n'))).length with hk
    by_cases h2 : run.contains '\n' = true
    · rw [if_pos h2] at h
      simp only [Option.some.injEq, Prod.mk.injEq] at h
      obtain ⟨hop, hrest⟩ := h
      have hlen10 : 10 ≤ l.length := by
        have hft : fenceTag.length = 10 := by decide
        have := congrArg List.length (by simpa [ciAt] using h1 :
          (l.take fenceTag.length).map lowC = fenceTag)
        simp only [List.length_map, List.length_take, hft] at this
        omega
      have hkle : k ≤ run.length := by omega
      have htk : run.take k = (l.drop 10).take k := by
        have hpre : run <+: l.drop 10 := by
          rw [hrun]
          exact List.takeWhile_prefix _
        have heq : run = (l.drop 10).take run.length :=
          List.prefix_iff_eq_take.mp hpre
        rw [heq, List.take_take, Nat.min_eq_left hkle]
      constructor
      · rw [← hop, ← hrest, htk, List.append_assoc, List.take_append_drop,
          List.take_append_drop]
      · rw [← hop]
        simp only [List.length_append, List.length_take]
        omega
    · rw [if_neg h2] at h
      cases h
  · rw [if_neg h1] at h
    cases h

theorem splitFence_split (l : List Char) :
    ∀ b a, splitFence l = some (b, a) → l = b ++ "```".data ++ a := by
  induction l with
  | nil => intro b a h; simp [splitFence] at h
  | cons c cs ih =>
    intro b a h
    simp only [splitFence] at h
    by_cases h1 : tripleBq (c :: cs) = true
    · rw [if_pos h1] at h
      simp only [Option.some.injEq, Prod.mk.injEq] at h
      obtain ⟨hb, ha⟩ := h
      have := prefix_self_append (k := "```".data) (r := c :: cs) (by
        simpa [tripleBq] using h1)
      rw [← hb, ← ha]
      simpa using this
    · rw [if_neg h1] at h
      cases h2 : splitFence cs with
      | none => rw [h2] at h; cases h
      | some p =>
        obtain ⟨b0, a0⟩ := p
        rw [h2] at h
        simp only [Option.some.injEq, Prod.mk.injEq] at h
        obtain ⟨hb, ha⟩ := h
        rw [← hb, ← ha]
        have := ih b0 a0 h2
        simp only [List.cons_append]
        rw [← this]

/-- The segments flatten back to the document: every character outside a
block is kept as a raw segment. -/
theorem docSegsF_flatten : ∀ (fuel : Nat) (l : List Char),
    (docSegsF fuel l).flatMap segText = l := by
  intro fuel
  induction fuel with
  | zero =>
    intro l
    induction l with
    | nil => rfl
    | cons c cs ihc =>
      simp only [docSegsF, List.map_cons, List.flatMap_cons] at ihc ⊢
      rw [ihc]
      rfl
  | succ fuel ih =>
    intro l
    match l with
    | [] => rfl
    | c :: cs =>
      simp only [docSegsF]
      split
      · next op rest hf =>
        split
        · next body after hs =>
          simp only [List.flatMap_cons, segText]
          rw [ih after]
          obtain ⟨hsplit, _⟩ := fenceOpenAt_split _ _ _ hf
          have hrest := splitFence_split rest body after hs
          rw [hsplit, hrest]
          simp
        · next hs =>
          simp only [List.flatMap_cons, segText]
          rw [ih cs]
          rfl
      · next hf =>
        simp only [List.flatMap_cons, segText]
        rw [ih cs]
        rfl

/-- The document fixer is exactly: fix each segment, concatenating texts
and fix lists. -/
theorem fixBlocksF_eq_segs : ∀ (fuel : Nat) (l : List Char),
    fixBlocksF fuel l =
      ((docSegsF fuel l).flatMap segOut, (docSegsF fuel l).flatMap segFixes) := by
  intro fuel
  induction fuel with
  | zero =>
    intro l
    induction l with
    | nil => rfl
    | cons c cs ihc =>
      simp only [docSegsF, List.map_cons, List.flatMap_cons] at ihc ⊢
      simp only [fixBlocksF] at ihc ⊢
      rw [Prod.ext_iff] at ihc ⊢
      simp only at ihc ⊢
      constructor
      · rw [← ihc.1]
        rfl
      · rw [← ihc.2]
        rfl
  | succ fuel ih =>
    intro l
    match l with
    | [] => rfl
    | c :: cs =>
      simp only [fixBlocksF, docSegsF]
      split
      · next op rest hf =>
        split
        · next body after hs =>
          simp only [List.flatMap_cons]
          by_cases hfx : (fixMermaidCode body).fixes.isEmpty = true
          · rw [if_pos hfx]
            rw [ih after]
            simp only [segOut, segFixes, hfx, if_true]
            have hnil : (fixMermaidCode body).fixes = [] :=
              List.isEmpty_iff.mp hfx
            rw [hnil]
            try simp
          · rw [if_neg hfx]
            rw [ih after]
            simp only [segOut, segFixes, hfx, Bool.false_eq_true, if_false]
            try simp
        · next hs =>
          simp only [List.flatMap_cons, segOut, segFixes]
          rw [ih cs]
          simp
      · next hf =>
        simp only [List.flatMap_cons, segOut, segFixes]
        rw [ih cs]
        simp

/-- **C7**: `fixDocument(document, false)` splits the document into the
characters outside delimited blocks and the blocks themselves; every
character outside a block is emitted unchanged (raw segments carry their
character through), its output is exactly the segment-wise fixed
document, its fix list is the segments' fix lists in document order, and
every block whose body `fixOne` does not change is emitted
byte-identically. -/
theorem C7_frame (document : List Char) :
    (docSegments document).flatMap segText = document ∧
    (fixMermaidInDocument document false).output =
      (docSegments document).flatMap segOut ∧
    (fixMermaidInDocument document false).fixes =
      (docSegments document).flatMap segFixes ∧
    (docSegments document).all segUnchangedOk = true := by
  refine ⟨docSegsF_flatten _ _, ?_, ?_, ?_⟩
  · simp only [fixMermaidInDocument, Bool.false_eq_true, if_false, fixBlocks,
      docSegments]
    rw [fixBlocksF_eq_segs]
  · simp only [fixMermaidInDocument, Bool.false_eq_true, if_false, fixBlocks,
      docSegments]
    rw [fixBlocksF_eq_segs]
  · rw [List.all_eq_true]
    intro s _
    cases s with
    | raw c => rfl
    | blk o b =>
      by_cases hch : (fixMermaidCode b).output = b
      · have hseg : segOut (.blk o b) = segText (.blk o b) := by
          simp only [segOut, segText]
          by_cases hfx : (fixMermaidCode b).fixes.isEmpty = true
          · rw [if_pos hfx]
          · rw [if_neg hfx, hch]
        simp [segUnchangedOk, hseg]
      · simp [segUnchangedOk, hch]

/-! ### Complete fenced blocks force the prose test (C10) -/

theorem dropWhile_head_false (p : Char → Bool) :
    ∀ (l : List Char) (c : Char) (z : List Char),
      l.dropWhile p = c :: z → p c = false := by
  intro l
  induction l with
  | nil => intro c z h; simp at h
  | cons a l' ih =>
    intro c z h
    rw [List.dropWhile_cons] at h
    by_cases hp : p a = true
    · rw [if_pos hp] at h
      exact ih c z h
    · rw [if_neg hp] at h
      cases h
      simpa using hp

theorem dropWhile_append_stop (p : Char → Bool) (c : Char) (hc : p c = false) :
    ∀ (a z : List Char), (a ++ c :: z).dropWhile p = a.dropWhile p ++ c :: z := by
  intro a
  induction a with
  | nil =>
    intro z
    simp [List.dropWhile_cons, hc]
  | cons a₀ a' ih =>
    intro z
    rw [List.cons_append, List.dropWhile_cons, List.dropWhile_cons]
    by_cases hp : p a₀ = true
    · rw [if_pos hp, if_pos hp]
      exact ih z
    · rw [if_neg hp, if_neg hp, List.cons_append]

/-- A whitespace run containing a newline splits at its last newline:
its take up to there is some whitespace followed by that newline. -/
theorem run_take_k (run : List Char) (h2 : run.contains '\n' = true)
    (hall : ∀ x ∈ run, isJsWs x = true) :
    ∃ ws, run.take (run.length - (run.reverse.takeWhile (fun c => !(c == '\n'))).length)
        = ws ++ ['\n'] ∧ ws.all isJsWs = true ∧
      run.length - (run.reverse.takeWhile (fun c => !(c == '\n'))).length
        ≤ run.length := by
  have hmemr : '\n' ∈ run.reverse := by
    rw [List.mem_reverse]
    simpa using h2
  obtain ⟨z, hz⟩ : ∃ z, run.reverse.dropWhile (fun c => !(c == '\n')) = '\n' :: z := by
    cases hd : run.reverse.dropWhile (fun c => !(c == '\n')) with
    | nil =>
      exfalso
      have hall2 : run.reverse = run.reverse.takeWhile (fun c => !(c == '\n')) := by
        conv_lhs =>
          rw [← List.takeWhile_append_dropWhile (fun c => !(c == '\n')) run.reverse]
        rw [hd, List.append_nil]
      have hmem3 : '\n' ∈ run.reverse.takeWhile (fun c => !(c == '\n')) := by
        rw [← hall2]; exact hmemr
      have h4 := List.mem_takeWhile_imp hmem3
      simp at h4
    | cons d z =>
      have hd2 := dropWhile_head_false _ _ _ _ hd
      have hdn : d = '\n' := by simpa using hd2
      rw [hdn]
      exact ⟨z, rfl⟩
  have hsplit2 : run.reverse =
      run.reverse.takeWhile (fun c => !(c == '\n')) ++ '\n' :: z := by
    conv_lhs =>
      rw [← List.takeWhile_append_dropWhile (fun c => !(c == '\n')) run.reverse]
    rw [hz]
  have hrunz : run = (z.reverse ++ ['\n']) ++
      (run.reverse.takeWhile (fun c => !(c == '\n'))).reverse := by
    have h6 := congrArg List.reverse hsplit2
    rw [List.reverse_reverse] at h6
    conv_lhs => rw [h6]
    rw [List.reverse_append, List.reverse_cons]
  have hkval : (z.reverse ++ ['\n']).length
      = run.length - (run.reverse.takeWhile (fun c => !(c == '\n'))).length := by
    have h7 := congrArg List.length hrunz
    simp only [List.length_append, List.length_reverse, List.length_cons,
      List.length_nil] at h7 ⊢
    omega
  refine ⟨z.reverse, ?_, ?_, ?_⟩
  · have h8 : ((z.reverse ++ ['\n']) ++
        (run.reverse.takeWhile (fun c => !(c == '\n'))).reverse).take
          (run.length - (run.reverse.takeWhile (fun c => !(c == '\n'))).length)
        = z.reverse ++ ['\n'] := List.take_left' hkval
    rw [← hrunz] at h8
    exact h8
  · rw [List.all_eq_true]
    intro x hx
    refine hall x ?_
    rw [hrunz]
    exact List.mem_append_left _ (List.mem_append_left _ hx)
  · omega

/-- Cutting a list after its leading whitespace run's last newline splits
it into the whitespace, that newline, and the rest. -/
theorem take_newline_decomp (R ws : List Char) (K : Nat)
    (htake : (R.takeWhile isJsWs).take K = ws ++ ['\n'])
    (hkle : K ≤ (R.takeWhile isJsWs).length) :
    R = ws ++ '\n' :: R.drop K := by
  have hdrop : R.drop K = (R.takeWhile isJsWs).drop K ++ R.dropWhile isJsWs := by
    conv_lhs => rw [← List.takeWhile_append_dropWhile isJsWs R]
    exact List.drop_append_of_le_length hkle
  rw [hdrop]
  conv_lhs => rw [← List.takeWhile_append_dropWhile isJsWs R]
  conv_lhs => rw [← List.take_append_drop K (R.takeWhile isJsWs)]
  rw [htake]
  simp

/-- A successful `fenceOpenAt` decomposes its input: a ten-character tag
matching the fence token case-insensitively, a whitespace run, and a
newline, followed by the remainder. -/
theorem fenceOpenAt_structure (l op rest : List Char)
    (h : fenceOpenAt l = some (op, rest)) :
    ∃ tag ws, l = tag ++ ws ++ '\n' :: rest ∧ lowL tag = fenceTag ∧
      ws.all isJsWs = true := by
  unfold fenceOpenAt at h
  by_cases h1 : ciAt fenceTag l = true
  · rw [if_pos h1] at h
    by_cases h2 : ((l.drop 10).takeWhile isJsWs).contains '\n' = true
    · rw [if_pos h2] at h
      simp only [Option.some.injEq, Prod.mk.injEq] at h
      obtain ⟨hop, hrest⟩ := h
      obtain ⟨ws, htake, hwsall, hkle⟩ :=
        run_take_k ((l.drop 10).takeWhile isJsWs) h2
          (fun x hx => List.mem_takeWhile_imp hx)
      refine ⟨l.take 10, ws, ?_, ?_, hwsall⟩
      · rw [← hrest]
        have h9 := take_newline_decomp (l.drop 10) ws
          (((l.drop 10).takeWhile isJsWs).length -
            (((l.drop 10).takeWhile isJsWs).reverse.takeWhile
              (fun c => !(c == '\n'))).length) htake hkle
        conv_lhs => rw [← List.take_append_drop 10 l, h9]
        simp
      · have hft : fenceTag.length = 10 := by decide
        have h8 : (l.take fenceTag.length).map lowC = fenceTag := by
          simpa [ciAt] using h1
        rw [hft] at h8
        simpa [lowL] using h8
    · rw [if_neg h2] at h
      cases h
  · rw [if_neg h1] at h
    cases h

/-- A complete fenced block decomposes the text around the opening tag,
whitespace, a newline, a body, and a closing fence. -/
theorem hasCompleteMermaidBlock_decomp (l : List Char)
    (h : hasCompleteMermaidBlock l = true) :
    ∃ a tag ws m b, l = a ++ tag ++ ws ++ '\n' :: (m ++ "```".data ++ b) ∧
      lowL tag = fenceTag ∧ ws.all isJsWs = true := by
  unfold hasCompleteMermaidBlock at h
  rw [List.any_eq_true] at h
  obtain ⟨s, hmem, hp⟩ := h
  rw [List.mem_tails] at hmem
  obtain ⟨a, ha⟩ := hmem
  replace hp : ((fenceOpenAt s).map (fun pr => (splitFence pr.2).isSome)).getD false
      = true := hp
  cases hf : fenceOpenAt s with
  | none =>
    rw [hf] at hp
    simp at hp
  | some pr =>
    obtain ⟨op, rest⟩ := pr
    rw [hf] at hp
    simp only [Option.map_some', Option.getD_some] at hp
    rw [Option.isSome_iff_exists] at hp
    obtain ⟨pr2, hsf⟩ := hp
    obtain ⟨body, after⟩ := pr2
    obtain ⟨tag, ws, hs, htag, hws⟩ := fenceOpenAt_structure s op rest hf
    have hrest := splitFence_split rest body after hsf
    refine ⟨a, tag, ws, body, after, ?_, htag, hws⟩
    rw [← ha, hs, hrest]
    simp

theorem lowC_backtick {c : Char} (h : lowC c = '`') : c = '`' := by
  rcases lowC_cases c with h0 | ⟨h1, h2, h3⟩
  · exact h0.symm.trans h
  · exfalso
    have h4 := congrArg Char.toNat h
    have h5 : ('`' : Char).toNat = 96 := by decide
    rw [h5] at h4
    omega

/-- A tag matching the fence token case-insensitively starts with three
literal backticks. -/
theorem tag_backticks {tag : List Char} (h : lowL tag = fenceTag) :
    ∃ t, tag = '`' :: '`' :: '`' :: t := by
  have hft : fenceTag = ['`', '`', '`', 'm', 'e', 'r', 'm', 'a', 'i', 'd'] := by decide
  rw [hft] at h
  cases tag with
  | nil => simp [lowL] at h
  | cons c0 t0 =>
    cases t0 with
    | nil => simp [lowL] at h
    | cons c1 t1 =>
      cases t1 with
      | nil => simp [lowL] at h
      | cons c2 t2 =>
        simp only [lowL, List.map_cons, List.cons.injEq] at h
        obtain ⟨h0, h1, h2, _⟩ := h
        exact ⟨t2, by rw [lowC_backtick h0, lowC_backtick h1, lowC_backtick h2]⟩

/-- The fence pair of a complete block satisfies the any-language
code-block pattern. -/
theorem pCodeBlock_of_decomp (a tag ws m b : List Char)
    (htag : lowL tag = fenceTag) :
    pCodeBlock (a ++ tag ++ ws ++ '\n' :: (m ++ "```".data ++ b)) = true := by
  obtain ⟨t, ht⟩ := tag_backticks htag
  unfold pCodeBlock
  rw [List.any_eq_true]
  refine ⟨tag ++ ws ++ '\n' :: (m ++ "```".data ++ b), ?_, ?_⟩
  · rw [List.mem_tails]
    exact ⟨a, by simp⟩
  · show (tripleBq (tag ++ ws ++ '\n' :: (m ++ "```".data ++ b)) &&
      ((tag ++ ws ++ '\n' :: (m ++ "```".data ++ b)).drop 3).tails.any tripleBq) = true
    rw [Bool.and_eq_true]
    have h9 : "```".data = ['`', '`', '`'] := by decide
    constructor
    · rw [ht]
      simp only [tripleBq, h9]
      simp [List.isPrefixOf]
    · rw [List.any_eq_true]
      refine ⟨"```".data ++ b, ?_, ?_⟩
      · rw [List.mem_tails, ht]
        exact ⟨t ++ ws ++ '\n' :: m, by simp⟩
      · simp only [tripleBq, h9]
        simp [List.isPrefixOf]

theorem hasMarkdownFeatures_of_pCodeBlock (text : List Char)
    (h : pCodeBlock text = true) : hasMarkdownFeatures text = true := by
  simp only [hasMarkdownFeatures]
  rw [decide_eq_true_iff]
  refine List.countP_pos_iff.mpr ⟨pCodeBlock text, ?_, ?_⟩
  · simp
  · simpa using h

/-- Trimming a text with non-whitespace sentinel characters on both sides
of a middle part only erodes the outer parts. -/
theorem jsTrim_inner (u v x : List Char) (cu cv : Char)
    (hcu : isJsWs cu = false) (hcv : isJsWs cv = false) :
    jsTrim (u ++ cu :: (x ++ cv :: v)) =
      u.dropWhile isJsWs ++ cu :: (x ++ cv :: (v.reverse.dropWhile isJsWs).reverse) := by
  unfold jsTrim
  rw [dropWhile_append_stop isJsWs cu hcu u (x ++ cv :: v)]
  have h1 : u.dropWhile isJsWs ++ cu :: (x ++ cv :: v)
      = (u.dropWhile isJsWs ++ cu :: x) ++ cv :: v := by simp
  rw [h1, List.reverse_append, List.reverse_cons]
  have h2 : v.reverse ++ [cv] ++ (u.dropWhile isJsWs ++ cu :: x).reverse
      = v.reverse ++ cv :: (u.dropWhile isJsWs ++ cu :: x).reverse := by simp
  rw [h2, dropWhile_append_stop isJsWs cv hcv v.reverse
    ((u.dropWhile isJsWs ++ cu :: x).reverse)]
  rw [List.reverse_append, List.reverse_cons, List.reverse_reverse]
  simp

/-- Trimming preserves a complete-block decomposition: the trim stops at
the fence backticks on both sides. -/
theorem jsTrim_decomp (a tag ws m b : List Char) (htag : lowL tag = fenceTag) :
    jsTrim (a ++ tag ++ ws ++ '\n' :: (m ++ "```".data ++ b)) =
      a.dropWhile isJsWs ++ tag ++ ws ++
        '\n' :: (m ++ "```".data ++ (b.reverse.dropWhile isJsWs).reverse) := by
  obtain ⟨t, ht⟩ := tag_backticks htag
  have hbt : isJsWs '`' = false := by decide
  have h0 := jsTrim_inner a b
    (('`' :: '`' :: t) ++ ws ++ '\n' :: (m ++ ['`', '`'])) '`' '`' hbt hbt
  have e1 : a ++ '`' :: ((('`' :: '`' :: t) ++ ws ++ '\n' :: (m ++ ['`', '`'])) ++ '`' :: b)
      = a ++ tag ++ ws ++ '\n' :: (m ++ "```".data ++ b) := by
    rw [ht]
    simp
  have e2 : a.dropWhile isJsWs ++ '`' ::
        ((('`' :: '`' :: t) ++ ws ++ '\n' :: (m ++ ['`', '`'])) ++
          '`' :: (b.reverse.dropWhile isJsWs).reverse)
      = a.dropWhile isJsWs ++ tag ++ ws ++
        '\n' :: (m ++ "```".data ++ (b.reverse.dropWhile isJsWs).reverse) := by
    rw [ht]
    simp
  rw [e1, e2] at h0
  exact h0

/-- A complete block survives the classifier's trim, so the prose test
fires on the trimmed text. -/
theorem hasMD_of_complete (text : List Char)
    (h : hasCompleteMermaidBlock text = true) :
    hasMarkdownFeatures (jsTrim text) = true := by
  obtain ⟨a, tag, ws, m, b, hdec, htag, hws⟩ := hasCompleteMermaidBlock_decomp text h
  rw [hdec, jsTrim_decomp a tag ws m b htag]
  exact hasMarkdownFeatures_of_pCodeBlock _ (pCodeBlock_of_decomp _ tag ws m _ htag)

theorem hasBlocks_of_complete (text : List Char)
    (h : hasCompleteMermaidBlock text = true) :
    containsMermaidBlocks (jsTrim text) = true := by
  obtain ⟨a, tag, ws, m, b, hdec, htag, hws⟩ := hasCompleteMermaidBlock_decomp text h
  rw [hdec, jsTrim_decomp a tag ws m b htag]
  exact (containsMermaidBlocks_iff _).mpr
    ⟨a.dropWhile isJsWs, tag, ws,
      m ++ "```".data ++ (b.reverse.dropWhile isJsWs).reverse, rfl, htag, hws⟩

theorem trim_ne_of_complete (text : List Char)
    (h : hasCompleteMermaidBlock text = true) :
    (jsTrim text).isEmpty = false := by
  obtain ⟨a, tag, ws, m, b, hdec, htag, hws⟩ := hasCompleteMermaidBlock_decomp text h
  obtain ⟨t, ht⟩ := tag_backticks htag
  rw [hdec, jsTrim_decomp a tag ws m b htag, ht]
  simp

theorem detect_mixed_of_complete (text : List Char)
    (h : hasCompleteMermaidBlock text = true) :
    (detectContentType text).type = ContentType.mixed ∧
    (detectContentType text).label = "Markdown + Mermaid" := by
  have hne := trim_ne_of_complete text h
  have hmd := hasMD_of_complete text h
  have hmb := hasBlocks_of_complete text h
  simp [detectContentType, hne, hmd, hmb]

/-- The fenced-only branch requires the prose test to have failed. -/
theorem fenced_label_noMD (doc : List Char)
    (h : (detectContentType doc).label = "Fenced Mermaid") :
    hasMarkdownFeatures (jsTrim doc) = false := by
  by_cases he : (jsTrim doc).isEmpty = true
  · exfalso
    simp [detectContentType, he] at h
  · by_cases hmd : hasMarkdownFeatures (jsTrim doc) = true
    · exfalso
      by_cases hmb : containsMermaidBlocks (jsTrim doc) = true <;>
      by_cases hlm : looksLikeMermaid (jsTrim doc) = true <;>
      simp [detectContentType, he, hmd, hmb, hlm] at h
    · simpa using hmd

/-- **C10**: an input with a complete delimited block — open fence with the
language tag, a body, and a closing fence — makes the any-language
code-block prose marker match on the trimmed text, so the prose-feature
test is true; classify then returns the Mixed result of the
prose-plus-diagram branch, and the distinctly labeled fenced-diagram-only
branch is reachable only for inputs with no complete block. -/
theorem C10_complete_block (text : List Char)
    (h : hasCompleteMermaidBlock text = true) :
    pCodeBlock (jsTrim text) = true ∧
    hasMarkdownFeatures (jsTrim text) = true ∧
    (detectContentType text).type = ContentType.mixed ∧
    (detectContentType text).label = "Markdown + Mermaid" ∧
    ∀ doc, (detectContentType doc).label = "Fenced Mermaid" →
      hasCompleteMermaidBlock doc = false := by
  obtain ⟨a, tag, ws, m, b, hdec, htag, hws⟩ := hasCompleteMermaidBlock_decomp text h
  have hpc : pCodeBlock (jsTrim text) = true := by
    rw [hdec, jsTrim_decomp a tag ws m b htag]
    exact pCodeBlock_of_decomp _ tag ws m _ htag
  refine ⟨hpc, hasMD_of_complete text h, (detect_mixed_of_complete text h).1,
    (detect_mixed_of_complete text h).2, ?_⟩
  intro doc hdoc
  by_cases hc : hasCompleteMermaidBlock doc = true
  · exact absurd (hasMD_of_complete doc hc) (by simp [fenced_label_noMD doc hdoc])
  · simpa using hc

/-- Witness for C10 at a concrete document that is exactly one complete
fenced block: even it is classified as the Mixed prose-plus-diagram
result, not as the fenced-only branch. -/
theorem C10_witness :
    hasCompleteMermaidBlock "```mermaid\nx\n```".data = true ∧
    pCodeBlock (jsTrim "```mermaid\nx\n```".data) = true ∧
    hasMarkdownFeatures (jsTrim "```mermaid\nx\n```".data) = true ∧
    (detectContentType "```mermaid\nx\n```".data).type = ContentType.mixed ∧
    (detectContentType "```mermaid\nx\n```".data).label = "Markdown + Mermaid" :=
  ⟨by decide,
   (C10_complete_block "```mermaid\nx\n```".data (by decide)).1,
   (C10_complete_block "```mermaid\nx\n```".data (by decide)).2.1,
   (C10_complete_block "```mermaid\nx\n```".data (by decide)).2.2.1,
   (C10_complete_block "```mermaid\nx\n```".data (by decide)).2.2.2.1⟩

/-! ### The three-way modification equivalence (C3): counting and chains -/

theorem countBq_append (a b : List Char) : countBq (a ++ b) = countBq a + countBq b := by
  simp [countBq, List.countP_append]

theorem countBq_cons (c : Char) (l : List Char) :
    countBq (c :: l) = countBq l + (if (c == '`') = true then 1 else 0) := by
  simp [countBq, List.countP_cons]

theorem countBq_reverse (l : List Char) : countBq l.reverse = countBq l := by
  simp only [countBq]
  exact (List.reverse_perm l).countP_eq _

theorem countBq_dropWhile_ws (l : List Char) :
    countBq (l.dropWhile isJsWs) = countBq l := by
  have h0 : countBq (l.takeWhile isJsWs) = 0 := by
    simp only [countBq, List.countP_eq_zero]
    intro c hc
    have hws := List.mem_takeWhile_imp hc
    simp only [beq_iff_eq]
    intro hceq
    subst hceq
    exact absurd hws (by decide)
  have hsplit := congrArg countBq (List.takeWhile_append_dropWhile isJsWs l)
  rw [countBq_append] at hsplit
  omega

theorem countBq_jsTrim (l : List Char) : countBq (jsTrim l) = countBq l := by
  unfold jsTrim
  rw [countBq_reverse, countBq_dropWhile_ws, countBq_reverse, countBq_dropWhile_ws]

theorem countBq_bomStrip (l : List Char) : countBq (bomStrip l) = countBq l := by
  cases l with
  | nil => rfl
  | cons c r =>
    show countBq (if (c.toNat == 0xFEFF) = true then r else c :: r) = countBq (c :: r)
    by_cases hc : (c.toNat == 0xFEFF) = true
    · rw [if_pos hc, countBq_cons]
      have hcb : (c == '`') = false := by
        rw [beq_eq_false_iff_ne]
        intro hceq
        subst hceq
        exact absurd hc (by decide)
      rw [hcb]
      simp
    · rw [if_neg hc]

theorem countBq_stripInvisible (l : List Char) :
    countBq (stripInvisible l) = countBq l := by
  unfold stripInvisible
  rw [← countBq_bomStrip l]
  simp only [countBq, List.countP_filter]
  congr 1
  funext c
  by_cases hc : c = '`'
  · subst hc
    decide
  · have hf : (c == '`') = false := beq_eq_false_iff_ne.mpr hc
    simp [hf]

theorem bomStrip_sublist (l : List Char) : List.Sublist (bomStrip l) l := by
  cases l with
  | nil => exact List.Sublist.refl _
  | cons c r =>
    show List.Sublist (if (c.toNat == 0xFEFF) = true then r else c :: r) (c :: r)
    by_cases hc : (c.toNat == 0xFEFF) = true
    · rw [if_pos hc]
      exact List.sublist_cons_self c r
    · rw [if_neg hc]

theorem stripInvisible_sublist (l : List Char) : List.Sublist (stripInvisible l) l :=
  List.Sublist.trans (List.filter_sublist _) (bomStrip_sublist l)

theorem stripInvisible_length_le (l : List Char) :
    (stripInvisible l).length ≤ l.length :=
  (stripInvisible_sublist l).length_le

theorem stripInvisible_eq_of_length (l : List Char)
    (h : (stripInvisible l).length = l.length) : stripInvisible l = l :=
  (stripInvisible_sublist l).eq_of_length h

theorem capsApply_none_fst (kw canon : List Char) (hasV2 : Bool) (x : List Char)
    (h : (capsApply kw canon hasV2 x).2 = none) :
    (capsApply kw canon hasV2 x).1 = x := by
  cases hf : capsFindPos kw hasV2 true x with
  | none => rw [capsApply_unfired_none _ _ _ _ hf]
  | some p =>
    cases ht : capsTry kw hasV2 (x.drop p) with
    | none => simp [capsApply, hf, ht]
    | some r =>
      by_cases hm : (x.drop (p + r)).take kw.length = canon
      · rw [capsApply_unfired_canon _ _ _ _ _ _ hf ht hm]
      · rw [capsApply_fired _ _ _ _ _ _ hf ht hm] at h
        simp at h

theorem capsApply_some_inv (kw canon : List Char) (hasV2 : Bool) (x m : List Char)
    (hkw : kw ≠ [])
    (h : (capsApply kw canon hasV2 x).2 = some m) :
    ∃ s, ((lowL x).drop s).take kw.length = kw ∧ s + kw.length ≤ x.length ∧
      (x.drop s).take kw.length ≠ canon ∧
      (capsApply kw canon hasV2 x).1 = x.take s ++ canon ++ x.drop (s + kw.length) := by
  cases hf : capsFindPos kw hasV2 true x with
  | none =>
    rw [capsApply_unfired_none _ _ _ _ hf] at h
    simp at h
  | some p =>
    cases ht : capsTry kw hasV2 (x.drop p) with
    | none =>
      have hnone : capsApply kw canon hasV2 x = (x, none) := by simp [capsApply, hf, ht]
      rw [hnone] at h
      simp at h
    | some r =>
      by_cases hm : (x.drop (p + r)).take kw.length = canon
      · rw [capsApply_unfired_canon _ _ _ _ _ _ hf ht hm] at h
        simp at h
      · obtain ⟨hocc, hle⟩ := capsFired_occ kw hasV2 x p r hkw ht
        exact ⟨p + r, hocc, hle, hm, by rw [capsApply_fired _ _ _ _ _ _ hf ht hm]⟩

theorem capsStep_silent (kw canon : List Char) (hasV2 : Bool) (nm : String)
    (st : List Char × List String)
    (h : (capsApply kw canon hasV2 st.1).2 = none) :
    capsStep kw canon hasV2 nm st = st := by
  have hfst := capsApply_none_fst kw canon hasV2 st.1 h
  unfold capsStep
  cases hap : capsApply kw canon hasV2 st.1 with
  | mk code rep =>
    rw [hap] at h hfst
    simp only at h hfst
    subst h
    subst hfst
    rfl

theorem capsStep_fire (kw canon : List Char) (hasV2 : Bool) (nm : String)
    (st : List Char × List String) (m : List Char)
    (h : (capsApply kw canon hasV2 st.1).2 = some m) :
    capsStep kw canon hasV2 nm st =
      ((capsApply kw canon hasV2 st.1).1, st.2 ++ [capsMsg nm m]) := by
  unfold capsStep
  cases hap : capsApply kw canon hasV2 st.1 with
  | mk code rep =>
    rw [hap] at h
    simp only at h
    subst h
    rfl

theorem capsStagesL_cons (r : CapsRule) (rs : List CapsRule)
    (st : List Char × List String) :
    capsStagesL (r :: rs) st = capsStagesL rs (capsStepR r st) := rfl

theorem capsStagesAll_eq (st : List Char × List String) :
    capsStagesAll st = capsStagesL capsRules st := rfl

theorem capsStagesL_snd_ext : ∀ (rs : List CapsRule) (st : List Char × List String),
    ∃ u, (capsStagesL rs st).2 = st.2 ++ u := by
  intro rs
  induction rs with
  | nil => intro st; exact ⟨[], by simp [capsStagesL]⟩
  | cons r rs ih =>
    intro st
    cases hap : (capsApply r.1 r.2.1 r.2.2.1 st.1).2 with
    | none =>
      obtain ⟨u, hu⟩ := ih (capsStepR r st)
      have hstep : capsStepR r st = st := capsStep_silent _ _ _ _ _ hap
      refine ⟨u, ?_⟩
      rw [capsStagesL_cons, hstep]
      rw [hstep] at hu
      exact hu
    | some m =>
      obtain ⟨u, hu⟩ := ih (capsStepR r st)
      have hstep : capsStepR r st =
          ((capsApply r.1 r.2.1 r.2.2.1 st.1).1, st.2 ++ [capsMsg r.2.2.2 m]) :=
        capsStep_fire r.1 r.2.1 r.2.2.1 r.2.2.2 st m hap
      refine ⟨[capsMsg r.2.2.2 m] ++ u, ?_⟩
      rw [capsStagesL_cons, hstep]
      rw [hstep] at hu
      rw [hu]
      simp

theorem capsStagesL_silent : ∀ (rs : List CapsRule) (st : List Char × List String),
    (capsStagesL rs st).2 = st.2 → capsStagesL rs st = st := by
  intro rs
  induction rs with
  | nil => intro st _; rfl
  | cons r rs ih =>
    intro st h
    rw [capsStagesL_cons] at h ⊢
    cases hap : (capsApply r.1 r.2.1 r.2.2.1 st.1).2 with
    | none =>
      have hstep : capsStepR r st = st := capsStep_silent _ _ _ _ _ hap
      rw [hstep] at h ⊢
      exact ih st h
    | some m =>
      exfalso
      have hstep : capsStepR r st =
          ((capsApply r.1 r.2.1 r.2.2.1 st.1).1, st.2 ++ [capsMsg r.2.2.2 m]) :=
        capsStep_fire r.1 r.2.1 r.2.2.1 r.2.2.2 st m hap
      rw [hstep] at h
      obtain ⟨u, hu⟩ := capsStagesL_snd_ext rs
        ((capsApply r.1 r.2.1 r.2.2.1 st.1).1, st.2 ++ [capsMsg r.2.2.2 m])
      rw [hu] at h
      simp only at h
      have hlen := congrArg List.length h
      simp only [List.length_append, List.length_cons, List.length_nil] at hlen
      omega

theorem ruleOK_spec {r : CapsRule} (h : ruleOK r = true) :
    r.1 ≠ [] ∧ lowL r.2.1 = r.1 ∧ r.2.1.length = r.1.length ∧
      ('`' : Char) ∉ r.1 ∧ ('`' : Char) ∉ r.2.1 := by
  simp only [ruleOK, Bool.and_eq_true, decide_eq_true_eq] at h
  exact ⟨h.1.1.1.1, h.1.1.1.2, h.1.1.2, h.1.2, h.2⟩

theorem capsOut_length (kw canon : List Char) (hasV2 : Bool)
    (hkw : kw ≠ []) (hlen : canon.length = kw.length) (x : List Char) :
    (capsOut kw canon hasV2 x).length = x.length := by
  rcases capsOut_cases kw canon hasV2 hkw x with h | ⟨s, hocc, hle, hm, hout⟩
  · rw [h]
  · rw [hout]
    have hs : s ≤ x.length := by omega
    simp only [List.length_append, List.length_take, List.length_drop, hlen]
    rw [Nat.min_eq_left hs]
    omega

theorem capsStagesL_length : ∀ (rs : List CapsRule), rs.all ruleOK = true →
    ∀ st : List Char × List String, ((capsStagesL rs st).1).length = st.1.length := by
  intro rs
  induction rs with
  | nil => intro _ st; rfl
  | cons r rs ih =>
    intro hok st
    rw [List.all_cons, Bool.and_eq_true] at hok
    obtain ⟨hne, hlow, hlen, hbq1, hbq2⟩ := ruleOK_spec hok.1
    rw [capsStagesL_cons, ih hok.2]
    rw [show (capsStepR r st).1 = capsOut r.1 r.2.1 r.2.2.1 st.1 from
      capsStep_fst _ _ _ _ _]
    exact capsOut_length _ _ _ hne hlen st.1

theorem capsStagesL_lowL : ∀ (rs : List CapsRule), rs.all ruleOK = true →
    ∀ st : List Char × List String, lowL (capsStagesL rs st).1 = lowL st.1 := by
  intro rs
  induction rs with
  | nil => intro _ st; rfl
  | cons r rs ih =>
    intro hok st
    rw [List.all_cons, Bool.and_eq_true] at hok
    obtain ⟨hne, hlow, hlen, hbq1, hbq2⟩ := ruleOK_spec hok.1
    rw [capsStagesL_cons, ih hok.2]
    rw [show (capsStepR r st).1 = capsOut r.1 r.2.1 r.2.2.1 st.1 from
      capsStep_fst _ _ _ _ _]
    exact capsOut_lowL _ _ _ hlow hne st.1

theorem capsOut_countBq (kw canon : List Char) (hasV2 : Bool)
    (hkw : kw ≠ []) (hkwb : ('`' : Char) ∉ kw) (hcb : ('`' : Char) ∉ canon)
    (x : List Char) :
    countBq (capsOut kw canon hasV2 x) = countBq x := by
  rcases capsOut_cases kw canon hasV2 hkw x with h | ⟨s, hocc, hle, hm, hout⟩
  · rw [h]
  · rw [hout]
    have hmb : countBq ((x.drop s).take kw.length) = 0 := by
      simp only [countBq, List.countP_eq_zero]
      intro c hc
      simp only [beq_iff_eq]
      intro hceq
      subst hceq
      apply hkwb
      have hmem2 : lowC '`' ∈ lowL ((x.drop s).take kw.length) :=
        List.mem_map_of_mem lowC hc
      have hlw : lowL ((x.drop s).take kw.length) = kw := by
        simp only [lowL, List.map_take, List.map_drop]
        simp only [lowL] at hocc
        exact hocc
      rw [hlw] at hmem2
      have hlbq : lowC '`' = '`' := by decide
      rw [hlbq] at hmem2
      exact hmem2
    have hcb0 : countBq canon = 0 := by
      simp only [countBq, List.countP_eq_zero]
      intro c hc
      simp only [beq_iff_eq]
      intro hceq
      subst hceq
      exact hcb hc
    have hx := congrArg countBq (slice_decomp x s kw.length)
    rw [countBq_append, countBq_append] at hx
    rw [countBq_append, countBq_append]
    omega

theorem capsStagesL_countBq : ∀ (rs : List CapsRule), rs.all ruleOK = true →
    ∀ st : List Char × List String, countBq (capsStagesL rs st).1 = countBq st.1 := by
  intro rs
  induction rs with
  | nil => intro _ st; rfl
  | cons r rs ih =>
    intro hok st
    rw [List.all_cons, Bool.and_eq_true] at hok
    obtain ⟨hne, hlow, hlen, hbq1, hbq2⟩ := ruleOK_spec hok.1
    rw [capsStagesL_cons, ih hok.2]
    rw [show (capsStepR r st).1 = capsOut r.1 r.2.1 r.2.2.1 st.1 from
      capsStep_fst _ _ _ _ _]
    exact capsOut_countBq _ _ _ hne hbq1 hbq2 st.1

/-- A capitalization rule does not touch a keyword occurrence of a
non-overlapping other keyword: the slice there is unchanged. -/
theorem capsOut_frame (kw canon kw₀ : List Char) (hasV2 : Bool) (s : Nat)
    (hkw : kw ≠ []) (hlen : canon.length = kw.length)
    (hfree₁ : overlapFreeFrom 0 kw₀ kw = true)
    (hfree₂ : overlapFreeFrom 0 kw kw₀ = true)
    (y : List Char)
    (hocc₀ : ((lowL y).drop s).take kw₀.length = kw₀) :
    ((capsOut kw canon hasV2 y).drop s).take kw₀.length =
      (y.drop s).take kw₀.length := by
  rcases capsOut_cases kw canon hasV2 hkw y with hsame | ⟨p, hocc, hle, hm, hout⟩
  · rw [hsame]
  · have hdisj : p + kw.length ≤ s ∨ s + kw₀.length ≤ p := by
      by_cases hord : s ≤ p
      · right
        have hno := no_overlap_of_free hfree₁ hocc₀ hocc hord (by omega)
        omega
      · left
        have hno := no_overlap_of_free hfree₂ hocc hocc₀ (by omega) (by omega)
        omega
    have hple : p ≤ y.length := by omega
    have htl : (y.take p ++ canon).length = p + kw.length := by
      simp only [List.length_append, List.length_take, hlen]
      rw [Nat.min_eq_left hple]
    rcases hdisj with hc1 | hc2
    · have hdropA : (capsOut kw canon hasV2 y).drop s = y.drop s := by
        rw [hout]
        calc (y.take p ++ canon ++ y.drop (p + kw.length)).drop s
            = ((y.take p ++ canon ++ y.drop (p + kw.length)).drop
                (p + kw.length)).drop (s - (p + kw.length)) := by
              rw [List.drop_drop]
              congr 1
              omega
          _ = (y.drop (p + kw.length)).drop (s - (p + kw.length)) := by
              rw [List.drop_left' htl]
          _ = y.drop s := by
              rw [List.drop_drop]
              congr 1
              omega
      rw [hdropA]
    · have htakeA : (capsOut kw canon hasV2 y).take (s + kw₀.length)
          = y.take (s + kw₀.length) := by
        rw [hout]
        have h1 : (y.take p ++ (canon ++ y.drop (p + kw.length))).take (s + kw₀.length)
            = (y.take p).take (s + kw₀.length) := by
          apply List.take_append_of_le_length
          rw [List.length_take, Nat.min_eq_left hple]
          exact hc2
        rw [show y.take p ++ canon ++ y.drop (p + kw.length)
            = y.take p ++ (canon ++ y.drop (p + kw.length)) from by simp, h1,
          List.take_take, Nat.min_eq_left hc2]
      have hsl : ∀ w : List Char, (w.drop s).take kw₀.length
          = (w.take (s + kw₀.length)).drop s := by
        intro w
        rw [List.drop_take]
        congr 1
        omega
      rw [hsl, hsl, htakeA]

/-- A keyword occurrence of a keyword apart from every rule of the list
survives the whole chain unchanged. -/
theorem capsStagesL_frame (kw₀ : List Char) (s : Nat) :
    ∀ (rs : List CapsRule) (st : List Char × List String),
      rs.all ruleOK = true →
      (∀ r' ∈ rs, overlapFreeFrom 0 kw₀ r'.1 = true ∧
        overlapFreeFrom 0 r'.1 kw₀ = true) →
      ((lowL st.1).drop s).take kw₀.length = kw₀ →
      (((capsStagesL rs st).1).drop s).take kw₀.length =
        (st.1.drop s).take kw₀.length := by
  intro rs
  induction rs with
  | nil => intro st _ _ _; rfl
  | cons r rs ih =>
    intro st hok hfree hocc₀
    rw [List.all_cons, Bool.and_eq_true] at hok
    obtain ⟨hne, hlow, hlen, _, _⟩ := ruleOK_spec hok.1
    obtain ⟨hf1, hf2⟩ := hfree r (List.mem_cons_self _ _)
    have hstepfst : (capsStepR r st).1 = capsOut r.1 r.2.1 r.2.2.1 st.1 :=
      capsStep_fst _ _ _ _ _
    have hframe := capsOut_frame r.1 r.2.1 kw₀ r.2.2.1 s hne hlen hf1 hf2 st.1 hocc₀
    have hlowstep : lowL (capsStepR r st).1 = lowL st.1 := by
      rw [hstepfst]
      exact capsOut_lowL _ _ _ hlow hne st.1
    have hocc₀' : ((lowL (capsStepR r st).1).drop s).take kw₀.length = kw₀ := by
      rw [hlowstep]
      exact hocc₀
    rw [capsStagesL_cons]
    rw [ih (capsStepR r st) hok.2
      (fun r' h' => hfree r' (List.mem_cons_of_mem _ h')) hocc₀']
    rw [hstepfst]
    exact hframe

/-- If the chain of rules reported anything, the text really changed: the
first firing rule's rewritten slice survives the later rules. -/
theorem capsStagesL_changed : ∀ (rs : List CapsRule),
    rs.all ruleOK = true → rulesApartAll rs = true →
    ∀ st : List Char × List String,
      (capsStagesL rs st).2 ≠ st.2 → (capsStagesL rs st).1 ≠ st.1 := by
  intro rs
  induction rs with
  | nil => intro _ _ st h; exact absurd rfl h
  | cons r rs ih =>
    intro hok hap2 st hsnd
    rw [List.all_cons, Bool.and_eq_true] at hok
    have hapall : (rs.all (fun r' => rulesApart r r') && rulesApartAll rs) = true := hap2
    rw [Bool.and_eq_true] at hapall
    obtain ⟨hne, hlow, hlen, _, _⟩ := ruleOK_spec hok.1
    rw [capsStagesL_cons] at hsnd ⊢
    cases happ : (capsApply r.1 r.2.1 r.2.2.1 st.1).2 with
    | none =>
      have hstep : capsStepR r st = st := capsStep_silent _ _ _ _ _ happ
      rw [hstep] at hsnd ⊢
      exact ih hok.2 hapall.2 st hsnd
    | some m =>
      obtain ⟨s, hocc, hle, hm, hfst⟩ :=
        capsApply_some_inv r.1 r.2.1 r.2.2.1 st.1 m hne happ
      have hstepfst : (capsStepR r st).1 =
          st.1.take s ++ r.2.1 ++ st.1.drop (s + r.1.length) := by
        rw [show (capsStepR r st).1 = capsOut r.1 r.2.1 r.2.2.1 st.1 from
          capsStep_fst _ _ _ _ _]
        exact hfst
      have hple : s ≤ st.1.length := by omega
      have htl : (st.1.take s).length = s := by
        rw [List.length_take]
        exact Nat.min_eq_left hple
      have hslice' : ((capsStepR r st).1.drop s).take r.1.length = r.2.1 := by
        rw [hstepfst]
        have h1 : (st.1.take s ++ r.2.1 ++ st.1.drop (s + r.1.length)).drop s
            = r.2.1 ++ st.1.drop (s + r.1.length) := by
          rw [List.append_assoc]
          exact List.drop_left' htl
        rw [h1]
        exact List.take_left' hlen
      have hlowstep : lowL (capsStepR r st).1 = lowL st.1 := by
        rw [show (capsStepR r st).1 = capsOut r.1 r.2.1 r.2.2.1 st.1 from
          capsStep_fst _ _ _ _ _]
        exact capsOut_lowL _ _ _ hlow hne st.1
      have hocc' : ((lowL (capsStepR r st).1).drop s).take r.1.length = r.1 := by
        rw [hlowstep]
        exact hocc
      have hfree' : ∀ r' ∈ rs, overlapFreeFrom 0 r.1 r'.1 = true ∧
          overlapFreeFrom 0 r'.1 r.1 = true := by
        intro r' h'
        have hp := List.all_eq_true.mp hapall.1 r' h'
        simp only [rulesApart, Bool.and_eq_true] at hp
        exact hp
      have hframe := capsStagesL_frame r.1 s rs (capsStepR r st) hok.2 hfree' hocc'
      intro hcontra
      rw [hcontra] at hframe
      rw [hslice'] at hframe
      exact hm hframe

/-- The characters a merge eats between the two groups are all CR/LF. -/
theorem mergeTryAt_crlf (am : Bool) (cl : List Char → Option (List Char × List Char))
    (hcl : ∀ l g2 rest, cl l = some (g2, rest) → l = g2 ++ rest)
    (l g1 g2 rest : List Char)
    (h : mergeTryAt am cl l = some (g1, g2, rest)) :
    ∃ nls, l = g1 ++ nls ++ g2 ++ rest ∧ ∀ c ∈ nls, isCrLf c = true := by
  unfold mergeTryAt at h
  cases hc : commitLineAt am l with
  | none => rw [hc] at h; simp at h
  | some pr =>
    obtain ⟨gg1, r1⟩ := pr
    rw [hc] at h
    simp only at h
    set nls := r1.takeWhile isCrLf with hnls
    by_cases h2 : nls.isEmpty = true
    · simp [h2] at h
    · simp only [Bool.not_eq_true] at h2
      simp only [h2, Bool.false_eq_true, if_false] at h
      cases hcl2 : cl (r1.drop nls.length) with
      | none => rw [hcl2] at h; simp at h
      | some pq =>
        obtain ⟨gg2, rr⟩ := pq
        rw [hcl2] at h
        simp only [Option.some.injEq, Prod.mk.injEq] at h
        obtain ⟨rfl, rfl, rfl⟩ := h
        refine ⟨nls, ?_, ?_⟩
        · have hl1 : l = gg1 ++ r1 := commitLineAt_split am l gg1 r1 hc
          have hr1 : r1 = nls ++ r1.drop nls.length := by
            rw [hnls]
            exact takeWhile_self_append isCrLf r1
          rw [hl1]
          conv_lhs => rw [hr1, hcl _ _ _ hcl2]
          simp
        · intro c hcm
          exact List.mem_takeWhile_imp (hnls ▸ hcm)

theorem tagTryAt_crlf (l g1 g2 rest : List Char)
    (h : tagTryAt l = some (g1, g2, rest)) :
    ∃ nls, l = g1 ++ nls ++ g2 ++ rest ∧ ∀ c ∈ nls, isCrLf c = true :=
  mergeTryAt_crlf true tagClauseAt
    (fun l g2 rest hcl => (tagClauseAt_split l g2 rest hcl).1) l g1 g2 rest h

theorem typeTryAt_crlf (l g1 g2 rest : List Char)
    (h : typeTryAt l = some (g1, g2, rest)) :
    ∃ nls, l = g1 ++ nls ++ g2 ++ rest ∧ ∀ c ∈ nls, isCrLf c = true :=
  mergeTryAt_crlf false typeClauseAt
    (fun l g2 rest hcl => (typeClauseAt_split l g2 rest hcl).1) l g1 g2 rest h

/-- The merging pass preserves the number of backticks: it only removes
CR/LF and surrounding whitespace and inserts a space. -/
theorem mergePassF_countBq (tryA : List Char → Option (List Char × List Char × List Char))
    (htryB : ∀ l g1 g2 rest, tryA l = some (g1, g2, rest) →
      ∃ nls, l = g1 ++ nls ++ g2 ++ rest ∧ ∀ c ∈ nls, isCrLf c = true) :
    ∀ (fuel : Nat) (st : Bool) (l : List Char),
      countBq (mergePassF tryA fuel st l).1 = countBq l := by
  intro fuel
  induction fuel with
  | zero => intro st l; rfl
  | succ fuel ih =>
    intro st l
    match l with
    | [] => rfl
    | c :: cs =>
      simp only [mergePassF]
      cases htr : (if st then tryA (c :: cs) else none) with
      | none =>
        show countBq (c :: (mergePassF tryA fuel (isLineTermJs c) cs).1)
            = countBq (c :: cs)
        rw [countBq_cons, countBq_cons, ih (isLineTermJs c) cs]
      | some g =>
        obtain ⟨g1, g2, rest⟩ := g
        show countBq (g1 ++ ' ' :: jsTrim g2 ++ (mergePassF tryA fuel false rest).1)
            = countBq (c :: cs)
        have htr' : tryA (c :: cs) = some (g1, g2, rest) := by
          by_cases hst : st = true
          · rwa [if_pos hst] at htr
          · rw [if_neg hst] at htr
            exact absurd htr (by simp)
        obtain ⟨nls, hsplit, hcrlf⟩ := htryB _ _ _ _ htr'
        have hnls0 : countBq nls = 0 := by
          simp only [countBq, List.countP_eq_zero]
          intro a ha
          have hcr := hcrlf a ha
          simp only [beq_iff_eq]
          intro haeq
          subst haeq
          exact absurd hcr (by decide)
        have hx := congrArg countBq hsplit
        rw [countBq_append, countBq_append, countBq_append] at hx
        have hspace : countBq (' ' :: jsTrim g2) = countBq (jsTrim g2) := by
          rw [countBq_cons, show ((' ' : Char) == '`') = false from by decide]
          simp
        rw [countBq_append, countBq_append, hspace, countBq_jsTrim, ih false rest]
        omega

theorem mergeLoopF_countBq (tryA : List Char → Option (List Char × List Char × List Char))
    (htryB : ∀ l g1 g2 rest, tryA l = some (g1, g2, rest) →
      ∃ nls, l = g1 ++ nls ++ g2 ++ rest ∧ ∀ c ∈ nls, isCrLf c = true) :
    ∀ (fuel : Nat) (l : List Char),
      countBq (mergeLoopF tryA fuel l).1 = countBq l := by
  intro fuel
  induction fuel with
  | zero => intro l; rfl
  | succ fuel ih =>
    intro l
    simp only [mergeLoopF]
    by_cases hz : (mergePassF tryA l.length true l).2 = 0
    · rw [if_pos hz]
    · rw [if_neg hz]
      show countBq (mergeLoopF tryA fuel (mergePassF tryA l.length true l).1).1
          = countBq l
      rw [ih, mergePassF_countBq tryA htryB]

/-- A merge loop that counted nothing left the text alone. -/
theorem mergeLoopF_zero (tryA : List Char → Option (List Char × List Char × List Char))
    (fuel : Nat) (l : List Char)
    (h : (mergeLoopF tryA (fuel + 1) l).2 = 0) :
    (mergeLoopF tryA (fuel + 1) l).1 = l := by
  simp only [mergeLoopF] at h ⊢
  by_cases hz : (mergePassF tryA l.length true l).2 = 0
  · rw [if_pos hz]
  · rw [if_neg hz] at h ⊢
    simp only at h
    omega

theorem fixCode_output (x : List Char) :
    (fixMermaidCode x).output =
      (typeLoop (tagLoop (capsAllOut (stripInvisible x))).1).1 := by
  simp only [fixMermaidCode, capsStagesAll_fst]

theorem fixCode_fixes (x : List Char) :
    (fixMermaidCode x).fixes =
      ((capsStagesAll (stripInvisible x,
          if (stripInvisible x).length ≠ x.length then
            ["Removed invisible characters (BOM/zero-width)"] else [])).2 ++
        (if (tagLoop (capsAllOut (stripInvisible x))).2 > 0 then
          [tagMsg (tagLoop (capsAllOut (stripInvisible x))).2] else [])) ++
      (if (typeLoop (tagLoop (capsAllOut (stripInvisible x))).1).2 > 0 then
        [typeMsg (typeLoop (tagLoop (capsAllOut (stripInvisible x))).1).2] else []) := by
  simp only [fixMermaidCode, capsStagesAll_fst]

theorem fixCode_wasModified (x : List Char) :
    (fixMermaidCode x).wasModified = !(fixMermaidCode x).fixes.isEmpty := by
  simp only [fixMermaidCode]

theorem capsAllOut_length (x : List Char) :
    (capsAllOut x).length = x.length := by
  have h := capsStagesL_length capsRules (by decide) (x, ([] : List String))
  rw [← capsStagesAll_eq, capsStagesAll_fst] at h
  simpa using h

theorem capsAllOut_countBq (x : List Char) :
    countBq (capsAllOut x) = countBq x := by
  have h := capsStagesL_countBq capsRules (by decide) (x, ([] : List String))
  rw [← capsStagesAll_eq, capsStagesAll_fst] at h
  simpa using h

theorem fixCode_length_le (x : List Char) :
    (fixMermaidCode x).output.length ≤ x.length := by
  rw [fixCode_output]
  have h0 := stripInvisible_length_le x
  have h1 := capsAllOut_length (stripInvisible x)
  have h2 := mergeLoopF_len tagTryAt tagTryAt_split
    ((capsAllOut (stripInvisible x)).length + 1) (capsAllOut (stripInvisible x))
  have h3 := mergeLoopF_len typeTryAt typeTryAt_split
    ((tagLoop (capsAllOut (stripInvisible x))).1.length + 1)
    (tagLoop (capsAllOut (stripInvisible x))).1
  unfold tagLoop at h3
  unfold tagLoop typeLoop
  omega

theorem fixCode_length_lt (x : List Char)
    (hlt : ¬((stripInvisible x).length = x.length) ∨
      (tagLoop (capsAllOut (stripInvisible x))).2 ≠ 0 ∨
      (typeLoop (tagLoop (capsAllOut (stripInvisible x))).1).2 ≠ 0) :
    (fixMermaidCode x).output.length < x.length := by
  rw [fixCode_output]
  have h0 := stripInvisible_length_le x
  have h1 := capsAllOut_length (stripInvisible x)
  have h2 := mergeLoopF_len tagTryAt tagTryAt_split
    ((capsAllOut (stripInvisible x)).length + 1) (capsAllOut (stripInvisible x))
  have h3 := mergeLoopF_len typeTryAt typeTryAt_split
    ((tagLoop (capsAllOut (stripInvisible x))).1.length + 1)
    (tagLoop (capsAllOut (stripInvisible x))).1
  unfold tagLoop at h3
  unfold tagLoop typeLoop at hlt
  unfold tagLoop typeLoop
  omega

theorem fixCode_countBq (x : List Char) :
    countBq (fixMermaidCode x).output = countBq x := by
  rw [fixCode_output]
  unfold typeLoop tagLoop
  rw [mergeLoopF_countBq typeTryAt typeTryAt_crlf,
    mergeLoopF_countBq tagTryAt tagTryAt_crlf,
    capsAllOut_countBq, countBq_stripInvisible]

theorem fixCode_silent (x : List Char) (h : (fixMermaidCode x).fixes = []) :
    (fixMermaidCode x).output = x := by
  rw [fixCode_fixes] at h
  rw [List.append_eq_nil] at h
  obtain ⟨h61, h7⟩ := h
  rw [List.append_eq_nil] at h61
  obtain ⟨h5, h6⟩ := h61
  have hstrip : (stripInvisible x).length = x.length := by
    by_cases hq : (stripInvisible x).length ≠ x.length
    · exfalso
      obtain ⟨u, hu⟩ := capsStagesL_snd_ext capsRules
        (stripInvisible x, if (stripInvisible x).length ≠ x.length then
          ["Removed invisible characters (BOM/zero-width)"] else [])
      rw [← capsStagesAll_eq] at hu
      rw [hu] at h5
      simp only at h5
      rw [if_pos hq] at h5
      simp at h5
    · omega
  have hC0 : stripInvisible x = x := stripInvisible_eq_of_length x hstrip
  have hF0 : (if (stripInvisible x).length ≠ x.length then
      ["Removed invisible characters (BOM/zero-width)"] else [])
      = ([] : List String) := by
    rw [if_neg (by omega)]
  have hs2 : (capsStagesL capsRules (stripInvisible x,
      if (stripInvisible x).length ≠ x.length then
        ["Removed invisible characters (BOM/zero-width)"] else [])).2
      = (stripInvisible x,
        if (stripInvisible x).length ≠ x.length then
          ["Removed invisible characters (BOM/zero-width)"] else []).2 := by
    rw [← capsStagesAll_eq, h5]
    simp only
    rw [hF0]
  have hfix := capsStagesL_silent capsRules _ hs2
  have hY : capsAllOut (stripInvisible x) = stripInvisible x := by
    have hfst := congrArg Prod.fst hfix
    rw [← capsStagesAll_eq, capsStagesAll_fst] at hfst
    simpa using hfst
  have ht6 : (tagLoop (capsAllOut (stripInvisible x))).2 = 0 := by
    by_cases hp : (tagLoop (capsAllOut (stripInvisible x))).2 > 0
    · rw [if_pos hp] at h6
      simp at h6
    · omega
  have ht7 : (typeLoop (tagLoop (capsAllOut (stripInvisible x))).1).2 = 0 := by
    by_cases hp : (typeLoop (tagLoop (capsAllOut (stripInvisible x))).1).2 > 0
    · rw [if_pos hp] at h7
      simp at h7
    · omega
  rw [fixCode_output]
  have htag1 : (tagLoop (capsAllOut (stripInvisible x))).1
      = capsAllOut (stripInvisible x) := by
    unfold tagLoop at ht6 ⊢
    exact mergeLoopF_zero tagTryAt _ _ ht6
  have htype1 : (typeLoop (tagLoop (capsAllOut (stripInvisible x))).1).1
      = (tagLoop (capsAllOut (stripInvisible x))).1 := by
    unfold typeLoop at ht7 ⊢
    exact mergeLoopF_zero typeTryAt _ _ ht7
  rw [htype1, htag1, hY, hC0]

theorem fixCode_changed (x : List Char) (h : (fixMermaidCode x).fixes ≠ []) :
    (fixMermaidCode x).output ≠ x := by
  by_cases hstrip : (stripInvisible x).length = x.length
  · by_cases ht6 : (tagLoop (capsAllOut (stripInvisible x))).2 = 0
    · by_cases ht7 : (typeLoop (tagLoop (capsAllOut (stripInvisible x))).1).2 = 0
      · have hC0 : stripInvisible x = x := stripInvisible_eq_of_length x hstrip
        have hfx := fixCode_fixes x
        rw [if_neg (by omega), if_neg (by omega), if_neg (by omega)] at hfx
        simp only [List.append_nil] at hfx
        have hSne : (capsStagesL capsRules (stripInvisible x, ([] : List String))).2
            ≠ (stripInvisible x, ([] : List String)).2 := by
          intro heq
          apply h
          rw [hfx, capsStagesAll_eq, heq]
        have hch := capsStagesL_changed capsRules (by decide) (by decide) _ hSne
        have hYne : capsAllOut (stripInvisible x) ≠ stripInvisible x := by
          intro heq
          apply hch
          rw [← capsStagesAll_eq, capsStagesAll_fst]
          simpa using heq
        rw [fixCode_output]
        have htag1 : (tagLoop (capsAllOut (stripInvisible x))).1
            = capsAllOut (stripInvisible x) := by
          unfold tagLoop at ht6 ⊢
          exact mergeLoopF_zero tagTryAt _ _ ht6
        have htype1 : (typeLoop (tagLoop (capsAllOut (stripInvisible x))).1).1
            = (tagLoop (capsAllOut (stripInvisible x))).1 := by
          unfold typeLoop at ht7 ⊢
          exact mergeLoopF_zero typeTryAt _ _ ht7
        rw [htype1, htag1]
        rw [hC0] at hYne
        rw [hC0]
        exact hYne
      · have hlt := fixCode_length_lt x (Or.inr (Or.inr ht7))
        intro hcontra
        rw [hcontra] at hlt
        omega
    · have hlt := fixCode_length_lt x (Or.inr (Or.inl ht6))
      intro hcontra
      rw [hcontra] at hlt
      omega
  · have hlt := fixCode_length_lt x (Or.inl hstrip)
    intro hcontra
    rw [hcontra] at hlt
    omega

/-- The code fixer's fix list is empty exactly when the text is
unchanged. -/
theorem fixCode_iff (x : List Char) :
    (fixMermaidCode x).fixes = [] ↔ (fixMermaidCode x).output = x := by
  constructor
  · exact fixCode_silent x
  · intro ho
    by_contra hne
    exact fixCode_changed x hne ho

theorem segOut_length_le (sg : DocSeg) : (segOut sg).length ≤ (segText sg).length := by
  cases sg with
  | raw c => exact Nat.le_refl _
  | blk o b =>
    simp only [segOut, segText]
    by_cases hfx : (fixMermaidCode b).fixes.isEmpty = true
    · rw [if_pos hfx]
    · rw [if_neg hfx]
      simp only [List.length_append]
      have hle := fixCode_length_le b
      omega

theorem flatMap_segOut_length_le (ss : List DocSeg) :
    (ss.flatMap segOut).length ≤ (ss.flatMap segText).length := by
  induction ss with
  | nil =>
    simp only [List.flatMap_nil]
    exact Nat.le_refl _
  | cons sg ss ih =>
    simp only [List.flatMap_cons, List.length_append]
    have h1 := segOut_length_le sg
    omega

theorem flatMap_seg_congr (ss : List DocSeg)
    (h : ∀ sg ∈ ss, segOut sg = segText sg) :
    ss.flatMap segOut = ss.flatMap segText := by
  induction ss with
  | nil => simp
  | cons sg ss ih =>
    simp only [List.flatMap_cons]
    rw [h sg (List.mem_cons_self _ _),
      ih (fun s' h' => h s' (List.mem_cons_of_mem _ h'))]

/-- A changed segment survives concatenation: the flattened output
differs from the flattened input. -/
theorem flatMap_seg_ne (ss : List DocSeg)
    (hne : ∃ sg ∈ ss, segOut sg ≠ segText sg) :
    ss.flatMap segOut ≠ ss.flatMap segText := by
  induction ss with
  | nil => simp at hne
  | cons sg ss ih =>
    simp only [List.flatMap_cons]
    by_cases heq : segOut sg = segText sg
    · have hne' : ∃ sg' ∈ ss, segOut sg' ≠ segText sg' := by
        obtain ⟨w, hw, hwne⟩ := hne
        rcases List.mem_cons.mp hw with hws | hwss
        · exact absurd (hws ▸ heq) hwne
        · exact ⟨w, hwss, hwne⟩
      intro hcontra
      rw [heq] at hcontra
      exact ih hne' (List.append_cancel_left hcontra)
    · intro hcontra
      have hsgle := segOut_length_le sg
      have hssle := flatMap_segOut_length_le ss
      have hlen := congrArg List.length hcontra
      simp only [List.length_append] at hlen
      have hsgeq : (segOut sg).length = (segText sg).length := by omega
      have htake := congrArg (List.take (segOut sg).length) hcontra
      rw [List.take_left' rfl, List.take_left' hsgeq.symm] at htake
      exact heq htake

theorem fixDoc_false_output (x : List Char) :
    (fixMermaidInDocument x false).output = (docSegments x).flatMap segOut := by
  simp only [fixMermaidInDocument, Bool.false_eq_true, if_false, fixBlocks,
    docSegments]
  rw [fixBlocksF_eq_segs]

theorem fixDoc_false_fixes (x : List Char) :
    (fixMermaidInDocument x false).fixes = (docSegments x).flatMap segFixes := by
  simp only [fixMermaidInDocument, Bool.false_eq_true, if_false, fixBlocks,
    docSegments]
  rw [fixBlocksF_eq_segs]

theorem fixDoc_wasModified (x : List Char) (isRaw : Bool) :
    (fixMermaidInDocument x isRaw).wasModified
      = !(fixMermaidInDocument x isRaw).fixes.isEmpty := by
  cases isRaw with
  | true => simp [fixMermaidInDocument]
  | false => simp [fixMermaidInDocument]

/-- Wrapping adds six fence backticks, so the raw branch always changes
the text. -/
theorem fixDoc_raw_ne (x : List Char) :
    (fixMermaidInDocument x true).output ≠ x := by
  intro hcontra
  have hout : (fixMermaidInDocument x true).output
      = "```mermaid\n".data ++ (fixMermaidCode x).output ++ "\n```".data := by
    simp [fixMermaidInDocument]
  rw [hout] at hcontra
  have hcnt := congrArg countBq hcontra
  rw [countBq_append, countBq_append, fixCode_countBq] at hcnt
  have h1 : countBq "```mermaid\n".data = 3 := by decide
  have h2 : countBq "\n```".data = 3 := by decide
  rw [h1, h2] at hcnt
  omega

theorem fixDoc_false_silent (x : List Char)
    (h : (fixMermaidInDocument x false).fixes = []) :
    (fixMermaidInDocument x false).output = x := by
  rw [fixDoc_false_fixes] at h
  rw [List.flatMap_eq_nil_iff] at h
  rw [fixDoc_false_output]
  have hall : ∀ sg ∈ docSegments x, segOut sg = segText sg := by
    intro sg hsg
    have hfx := h sg hsg
    cases sg with
    | raw c => rfl
    | blk o b =>
      simp only [segFixes] at hfx
      have hemp : (fixMermaidCode b).fixes.isEmpty = true := by
        rw [hfx]
        rfl
      simp only [segOut, segText, hemp, if_true]
  rw [flatMap_seg_congr (docSegments x) hall]
  exact docSegsF_flatten _ _

theorem fixDoc_false_changed (x : List Char)
    (h : (fixMermaidInDocument x false).fixes ≠ []) :
    (fixMermaidInDocument x false).output ≠ x := by
  rw [fixDoc_false_fixes] at h
  rw [fixDoc_false_output]
  have hex : ∃ sg ∈ docSegments x, segFixes sg ≠ [] := by
    by_contra hall
    push_neg at hall
    apply h
    rw [List.flatMap_eq_nil_iff]
    exact hall
  obtain ⟨sg, hsg, hfxne⟩ := hex
  have hne : segOut sg ≠ segText sg := by
    cases sg with
    | raw c => exact absurd rfl hfxne
    | blk o b =>
      simp only [segFixes] at hfxne
      have hbne : (fixMermaidCode b).output ≠ b := fixCode_changed b hfxne
      have hemp : (fixMermaidCode b).fixes.isEmpty = false := by
        cases hh : (fixMermaidCode b).fixes with
        | nil => exact absurd hh hfxne
        | cons a l => rfl
      simp only [segOut, segText, hemp, Bool.false_eq_true, if_false]
      intro hcontra
      apply hbne
      have h1 := List.append_cancel_right hcontra
      exact List.append_cancel_left h1
  have hflat := flatMap_seg_ne (docSegments x) ⟨sg, hsg, hne⟩
  intro hcontra
  apply hflat
  rw [hcontra]
  exact (docSegsF_flatten _ _).symm

/-- **C3**: for both `fixOne` (`fixMermaidCode`) and `fixDocument`
(`fixMermaidInDocument`, both branches), the three-way equivalence holds:
`wasModified` is true iff the corrected text differs from the input, iff
the applied-fixes list is non-empty. -/
theorem C3_three_way (source fullText : List Char) (isRaw : Bool) :
    ((fixMermaidCode source).wasModified = true ↔
      (fixMermaidCode source).output ≠ source) ∧
    ((fixMermaidCode source).wasModified = true ↔
      (fixMermaidCode source).fixes ≠ []) ∧
    ((fixMermaidInDocument fullText isRaw).wasModified = true ↔
      (fixMermaidInDocument fullText isRaw).output ≠ fullText) ∧
    ((fixMermaidInDocument fullText isRaw).wasModified = true ↔
      (fixMermaidInDocument fullText isRaw).fixes ≠ []) := by
  have hwm1 : (fixMermaidCode source).wasModified = true ↔
      (fixMermaidCode source).fixes ≠ [] := by
    rw [fixCode_wasModified]
    cases hfx : (fixMermaidCode source).fixes <;> simp
  have hwm2 : (fixMermaidInDocument fullText isRaw).wasModified = true ↔
      (fixMermaidInDocument fullText isRaw).fixes ≠ [] := by
    rw [fixDoc_wasModified]
    cases hfx : (fixMermaidInDocument fullText isRaw).fixes <;> simp
  have hcode : (fixMermaidCode source).fixes ≠ [] ↔
      (fixMermaidCode source).output ≠ source := by
    constructor
    · exact fixCode_changed source
    · intro ho hf
      exact ho (fixCode_silent source hf)
  have hdoc : (fixMermaidInDocument fullText isRaw).fixes ≠ [] ↔
      (fixMermaidInDocument fullText isRaw).output ≠ fullText := by
    cases isRaw with
    | true =>
      constructor
      · intro _
        exact fixDoc_raw_ne fullText
      · intro _
        simp [fixMermaidInDocument]
    | false =>
      constructor
      · exact fixDoc_false_changed fullText
      · intro ho hf
        exact ho (fixDoc_false_silent fullText hf)
  refine ⟨?_, hwm1, ?_, hwm2⟩
  · rw [hwm1]
    exact hcode
  · rw [hwm2]
    exact hdoc

end MMP
